import Mathlib

/-!
Verification of the TfL journey-expense extraction core
(`src/services/geminiService.ts` and the multi-file batch loop shown in
`src/improvements.md`).

Modelling conventions of this shallow embedding:
* JavaScript strings are modelled as `List Char` (`Str`); the specific
  regular expressions used by the source are hand-translated into
  deterministic matching functions over `Str` (for each pattern the
  backtracking search of the JS engine is deterministic, as argued in the
  comments of the corresponding definitions).
* JavaScript numbers are modelled as rationals (`ℚ`).  `NaN` is modelled by
  `Option` at the points where the source can produce it; the IEEE-754
  artefacts `-0`, rounding of decimal literals to binary, and the exponent
  forms of `toFixed`/`parseFloat` are outside the model.
* Asynchronous calls only matter here through the values they produce, so
  fallible steps are modelled with `Except`/`Option` and the concurrency
  bound appears as the batch slicing the source performs.
-/

abbrev Str := List Char

/- Batteries marks the `Rat` field operations `@[irreducible]` purely to keep
`simp` from unfolding them; restoring the default transparency lets the
kernel evaluate the concrete witnesses below by `decide`. -/
set_option allowUnsafeReducibility true in
attribute [semireducible] Rat.add Rat.mul Rat.sub Rat.div Rat.neg Rat.ofScientific Rat.inv

/-- JS `\s` restricted to the whitespace characters that can survive the
file-reading pipeline. -/
def isJsWs (c : Char) : Bool :=
  c = ' ' || c = '\t' || c = '\n' || c = '\r' || c = '\x0b' || c = '\x0c'

/-- JS `\d`. -/
def isDigitB (c : Char) : Bool :=
  '0' ≤ c && c ≤ '9'

/-- JS `\w`. -/
def isWordChar (c : Char) : Bool :=
  isDigitB c || ('a' ≤ c && c ≤ 'z') || ('A' ≤ c && c ≤ 'Z') || c = '_'

/-- JS `String.prototype.toLowerCase`, restricted to ASCII (the only case
mapping exercised by the source's patterns). -/
def asciiLower (c : Char) : Char :=
  if 'A' ≤ c ∧ c ≤ 'Z' then Char.ofNat (c.toNat + 32) else c

/-- The character for a decimal digit value. -/
def digitChar (d : Nat) : Char := Char.ofNat (48 + d)

/-- Little-endian base-10 digits, structurally recursive on a fuel bound so
that it evaluates inside the kernel (`Nat.digits` is defined by well-founded
recursion and does not). -/
def digitsLE : Nat → Nat → List Nat
  | 0, _ => []
  | _ + 1, 0 => []
  | f + 1, m + 1 => ((m + 1) % 10) :: digitsLE f ((m + 1) / 10)

theorem digitsLE_eq_digits : ∀ (f n : Nat), n ≤ f → digitsLE f n = Nat.digits 10 n := by
  intro f
  induction f with
  | zero =>
    intro n hn
    interval_cases n
    simp [digitsLE]
  | succ f ih =>
    intro n hn
    match n with
    | 0 => simp [digitsLE]
    | m + 1 =>
      have hdiv : (m + 1) / 10 < m + 1 := Nat.div_lt_self (Nat.succ_pos m) (by norm_num)
      simp only [digitsLE]
      rw [ih ((m + 1) / 10) (by omega),
        Nat.digits_def' (by norm_num : 1 < 10) (Nat.succ_pos m)]

/-- Decimal rendering of a natural number, i.e. JS `String(n)` for a
non-negative integer. -/
def natToDec (n : Nat) : List Char :=
  if n = 0 then ['0'] else ((digitsLE n n).reverse.map digitChar)

theorem natToDec_eq (n : Nat) :
    natToDec n = if n = 0 then ['0'] else ((Nat.digits 10 n).reverse.map digitChar) := by
  unfold natToDec
  rw [digitsLE_eq_digits n n le_rfl]

/-- Numeric value of a decimal digit character. -/
def digitVal (c : Char) : Nat := c.toNat - 48

/-- Value of a big-endian decimal digit string, i.e. JS `parseInt(s, 10)`
on an all-digit string. -/
def decValue (s : List Char) : Nat :=
  s.foldl (fun a c => 10 * a + digitVal c) 0

theorem digitVal_digitChar {d : Nat} (hd : d < 10) : digitVal (digitChar d) = d := by
  interval_cases d <;> decide

theorem isDigitB_digitChar {d : Nat} (hd : d < 10) : isDigitB (digitChar d) = true := by
  interval_cases d <;> decide

theorem decValue_append_digits (s : List Char) (acc : Nat) :
    s.foldl (fun a c => 10 * a + digitVal c) acc =
      acc * 10 ^ s.length + decValue s := by
  induction s generalizing acc with
  | nil => simp [decValue]
  | cons c t ih =>
    simp only [List.foldl_cons, decValue, List.length_cons]
    rw [ih, ih (10 * 0 + digitVal c)]
    ring

theorem decValue_natToDec (n : Nat) : decValue (natToDec n) = n := by
  rw [natToDec_eq]
  by_cases h : n = 0
  · simp [h, decValue, digitVal]
  · simp only [h, if_false]
    have hd : ∀ L : List Nat, (∀ d ∈ L, d < 10) →
        decValue ((L.reverse).map digitChar) = Nat.ofDigits 10 L := by
      intro L
      induction L with
      | nil => intro _; simp [decValue]
      | cons x t ih =>
        intro hmem
        have hx : x < 10 := hmem x (by simp)
        have ht : ∀ d ∈ t, d < 10 := fun d hdm => hmem d (by simp [hdm])
        simp only [List.reverse_cons, List.map_append, List.map_cons, List.map_nil]
        simp only [decValue, List.foldl_append, List.foldl_cons, List.foldl_nil]
        have := decValue_append_digits ((t.reverse).map digitChar) 0
        simp only [decValue] at ih
        rw [ih ht, Nat.ofDigits_cons]
        rw [digitVal_digitChar hx]
        ring
    rw [hd _ (fun d hdm => Nat.digits_lt_base (by norm_num) hdm)]
    exact_mod_cast Nat.ofDigits_digits 10 n

theorem natToDec_all_digits (n : Nat) : ∀ c ∈ natToDec n, isDigitB c = true := by
  rw [natToDec_eq]
  by_cases h : n = 0
  · simp only [h, if_true, List.mem_singleton]
    intro c hc; subst hc; decide
  · simp only [h, if_false]
    intro c hc
    rcases List.mem_map.mp hc with ⟨d, hdm, rfl⟩
    exact isDigitB_digitChar (Nat.digits_lt_base (by norm_num) (List.mem_reverse.mp hdm))

theorem natToDec_ne_nil (n : Nat) : natToDec n ≠ [] := by
  rw [natToDec_eq]
  by_cases h : n = 0
  · simp [h]
  · simp only [h, if_false]
    intro hcon
    have hne : Nat.digits 10 n ≠ [] := Nat.digits_ne_nil_iff_ne_zero.mpr h
    simp only [List.map_eq_nil_iff, List.reverse_eq_nil_iff] at hcon
    exact hne hcon

theorem natToDec_length_le {n k : Nat} (h : n < 10 ^ k) (hk : 1 ≤ k) :
    (natToDec n).length ≤ k := by
  rw [natToDec_eq]
  by_cases h0 : n = 0
  · simpa [h0] using hk
  · simp only [h0, if_false, List.length_map, List.length_reverse]
    rw [Nat.digits_len 10 n (by norm_num) h0]
    have : Nat.log 10 n < k := Nat.log_lt_of_lt_pow h0 h
    omega

theorem natToDec_length_eq {n k : Nat} (hlo : 10 ^ k ≤ n) (hhi : n < 10 ^ (k + 1)) :
    (natToDec n).length = k + 1 := by
  have h0 : n ≠ 0 := by
    intro hcon; rw [hcon] at hlo
    have hpos : 0 < 10 ^ k := by positivity
    omega
  rw [natToDec_eq]
  simp only [h0, if_false, List.length_map, List.length_reverse]
  rw [Nat.digits_len 10 n (by norm_num) h0]
  have h1 : Nat.log 10 n < k + 1 := Nat.log_lt_of_lt_pow h0 hhi
  have h2 : k ≤ Nat.log 10 n := Nat.le_log_of_pow_le (by norm_num) hlo
  omega

/-- JS `s.padStart(2, "0")`. -/
def padStart2 (s : List Char) : List Char :=
  List.replicate (2 - s.length) '0' ++ s

theorem padStart2_length {s : List Char} (h1 : 1 ≤ s.length) (h2 : s.length ≤ 2) :
    (padStart2 s).length = 2 := by
  simp only [padStart2, List.length_append, List.length_replicate]
  omega

theorem padStart2_all_digits {s : List Char} (h : ∀ c ∈ s, isDigitB c = true) :
    ∀ c ∈ padStart2 s, isDigitB c = true := by
  intro c hc
  rcases List.mem_append.mp hc with h' | h'
  · rw [List.eq_of_mem_replicate h']; decide
  · exact h c h'

/-! ### JS number formatting and parsing (`toFixed(2)` / `parseFloat`)

`amount.toFixed(2)` rounds to the nearest hundredth, ties away from zero
towards the larger candidate; on rationals that is `⌊100q + 1/2⌋ / 100`. -/

/-- The rational value printed by `q.toFixed(2)`. -/
def round2 (q : ℚ) : ℚ := (⌊q * 100 + 1/2⌋ : ℤ) / 100

/-- JS `q.toFixed(2)` (for numbers below the exponent-notation range). -/
def toFixed2 (q : ℚ) : List Char :=
  let n : ℤ := ⌊q * 100 + 1/2⌋
  let m := n.natAbs
  let core := natToDec (m / 100) ++ '.' :: padStart2 (natToDec (m % 100))
  if n < 0 then '-' :: core else core

/-- Sign handling of `parseFloat`. -/
def jsParseFloatSign (s : List Char) : Bool × List Char :=
  match s with
  | [] => (false, [])
  | c :: t => if c = '-' then (true, t) else if c = '+' then (false, t) else (false, c :: t)

/-- Unsigned part of `parseFloat`: maximal run of digits, optionally followed
by `.` and a maximal run of fraction digits; trailing junk is ignored.
`none` models `NaN`.  (The exponent and `Infinity` forms of `parseFloat` are
never produced by the strings this code base parses.) -/
def fracDigits (r : List Char) : List Char :=
  match r with
  | '.' :: t => t.takeWhile isDigitB
  | _ => []

def jsParseFloatMag (s : List Char) : Option ℚ :=
  let ds := s.takeWhile isDigitB
  let fs := fracDigits (s.dropWhile isDigitB)
  if ds = [] ∧ fs = [] then none
  else some ((decValue ds : ℚ) + (decValue fs : ℚ) / 10 ^ fs.length)

/-- JS `parseFloat`, with `none` for `NaN`. -/
def jsParseFloat (s : List Char) : Option ℚ :=
  let s1 := s.dropWhile isJsWs
  let sg := jsParseFloatSign s1
  (jsParseFloatMag sg.2).map (fun q => if sg.1 then -q else q)

theorem isDigitB_char_facts {c : Char} (h : isDigitB c = true) :
    isJsWs c = false ∧ c ≠ '-' ∧ c ≠ '+' ∧ c ≠ '.' ∧ c ≠ '|' := by
  have h48 : 48 ≤ c.toNat := by
    simp only [isDigitB, Bool.and_eq_true, decide_eq_true_eq] at h
    exact h.1
  have h57 : c.toNat ≤ 57 := by
    simp only [isDigitB, Bool.and_eq_true, decide_eq_true_eq] at h
    exact h.2
  refine ⟨?_, ?_, ?_, ?_, ?_⟩
  · simp only [isJsWs, Bool.or_eq_false_iff, decide_eq_false_iff_not]
    refine ⟨⟨⟨⟨⟨?_, ?_⟩, ?_⟩, ?_⟩, ?_⟩, ?_⟩ <;>
      (intro hc; subst hc; simp_all)
  all_goals (intro hc; subst hc; simp_all)

theorem takeWhile_all_eq_self {p : Char → Bool} {l : List Char}
    (h : ∀ c ∈ l, p c = true) : l.takeWhile p = l := by
  induction l with
  | nil => rfl
  | cons c t ih =>
    have hc := h c (by simp)
    simp [List.takeWhile_cons, hc, ih (fun x hx => h x (by simp [hx]))]

theorem takeWhile_append_stop {p : Char → Bool} {A : List Char} {c : Char} {r : List Char}
    (hA : ∀ x ∈ A, p x = true) (hc : p c = false) :
    (A ++ c :: r).takeWhile p = A ∧ (A ++ c :: r).dropWhile p = c :: r := by
  induction A with
  | nil => simp [List.takeWhile_cons, List.dropWhile_cons, hc]
  | cons a t ih =>
    have ha : p a = true := hA a (by simp)
    have ht := ih (fun x hx => hA x (by simp [hx]))
    simp [List.takeWhile_cons, List.dropWhile_cons, ha, ht.1, ht.2]

theorem decValue_replicate_zero (k : Nat) (s : List Char) :
    decValue (List.replicate k '0' ++ s) = decValue s := by
  induction k with
  | zero => simp
  | succ k ih =>
    simp only [List.replicate_succ, List.cons_append, decValue, List.foldl_cons] at *
    simpa [digitVal] using ih

theorem decValue_padStart2 (s : List Char) : decValue (padStart2 s) = decValue s :=
  decValue_replicate_zero _ _

theorem jsParseFloat_dash_head (l : List Char) :
    jsParseFloat ('-' :: l) = (jsParseFloatMag l).map (fun q => -q) := by
  have hws : isJsWs '-' = false := by decide
  simp only [jsParseFloat, List.dropWhile_cons, hws, Bool.false_eq_true, if_false,
    jsParseFloatSign, if_pos rfl]
  cases h : jsParseFloatMag l <;> simp [h]

theorem jsParseFloat_digit_head {c : Char} (l : List Char) (hc : isDigitB c = true) :
    jsParseFloat (c :: l) = jsParseFloatMag (c :: l) := by
  obtain ⟨hws, hmn, hpl, -, -⟩ := isDigitB_char_facts hc
  simp only [jsParseFloat, List.dropWhile_cons, hws, Bool.false_eq_true, if_false,
    jsParseFloatSign, if_neg hmn, if_neg hpl]
  cases h : jsParseFloatMag (c :: l) <;> simp [h]

theorem fracDigits_dot (t : List Char) : fracDigits ('.' :: t) = t.takeWhile isDigitB := rfl

theorem jsParseFloatMag_core (a b : Nat) (hb : b < 100) :
    jsParseFloatMag (natToDec a ++ '.' :: padStart2 (natToDec b)) =
      some ((a : ℚ) + (b : ℚ) / 100) := by
  have hAdig := natToDec_all_digits a
  have hBdig : ∀ c ∈ padStart2 (natToDec b), isDigitB c = true :=
    padStart2_all_digits (natToDec_all_digits b)
  have hAne := natToDec_ne_nil a
  have hBlen : (padStart2 (natToDec b)).length = 2 := by
    refine padStart2_length ?_ (natToDec_length_le (by omega) (by omega))
    have := List.length_pos.mpr (natToDec_ne_nil b)
    omega
  have hsplit := takeWhile_append_stop (A := natToDec a) (c := '.')
      (r := padStart2 (natToDec b)) hAdig (by decide)
  have hBtake := takeWhile_all_eq_self hBdig
  unfold jsParseFloatMag
  rw [hsplit.1, hsplit.2, fracDigits_dot, hBtake]
  have hcond : ¬(natToDec a = [] ∧ padStart2 (natToDec b) = []) :=
    fun hcon => hAne hcon.1
  rw [if_neg hcond, decValue_natToDec, decValue_padStart2, decValue_natToDec, hBlen]
  rw [show ((10 : ℚ) ^ 2) = 100 by norm_num]

theorem toFixed2_eq (q : ℚ) : toFixed2 q =
    (if ⌊q * 100 + 1/2⌋ < 0 then
      '-' :: (natToDec ((⌊q * 100 + 1/2⌋).natAbs / 100) ++ '.' ::
        padStart2 (natToDec ((⌊q * 100 + 1/2⌋).natAbs % 100)))
    else natToDec ((⌊q * 100 + 1/2⌋).natAbs / 100) ++ '.' ::
        padStart2 (natToDec ((⌊q * 100 + 1/2⌋).natAbs % 100))) := rfl

theorem jsParseFloatMag_natAbs (n : ℤ) :
    jsParseFloatMag (natToDec (n.natAbs / 100) ++ '.' ::
      padStart2 (natToDec (n.natAbs % 100))) = some ((n.natAbs : ℚ) / 100) := by
  rw [jsParseFloatMag_core (n.natAbs / 100) (n.natAbs % 100) (Nat.mod_lt _ (by norm_num))]
  congr 1
  have hdm : (100 : ℚ) * ((n.natAbs / 100 : Nat) : ℚ) + ((n.natAbs % 100 : Nat) : ℚ) =
      ((n.natAbs : Nat) : ℚ) := by
    exact_mod_cast Nat.div_add_mod n.natAbs 100
  rw [show ((n.natAbs : Nat) : ℚ) = 100 * ((n.natAbs / 100 : Nat) : ℚ) +
    ((n.natAbs % 100 : Nat) : ℚ) from hdm.symm]
  ring

theorem jsParseFloat_toFixed2 (q : ℚ) : jsParseFloat (toFixed2 q) = some (round2 q) := by
  rw [toFixed2_eq, show round2 q = ((⌊q * 100 + 1/2⌋ : ℤ) : ℚ) / 100 from rfl]
  generalize ⌊q * 100 + 1/2⌋ = n
  by_cases hneg : n < 0
  · rw [if_pos hneg, jsParseFloat_dash_head, jsParseFloatMag_natAbs]
    have hnm : ((n.natAbs : ℕ) : ℚ) = -(n : ℚ) := by
      rw [Int.cast_natAbs, Int.cast_abs]
      exact abs_of_neg (by exact_mod_cast hneg)
    have hmap : Option.map (fun x : ℚ => -x) (some (((n.natAbs : ℕ) : ℚ) / 100)) =
        some (-(((n.natAbs : ℕ) : ℚ) / 100)) := rfl
    rw [hmap, hnm]
    congr 1
    ring
  · obtain ⟨a, t, hat⟩ := List.exists_cons_of_ne_nil (natToDec_ne_nil (n.natAbs / 100))
    have hadig : isDigitB a = true :=
      natToDec_all_digits _ a (by rw [hat]; exact List.mem_cons_self a t)
    have hconsform : natToDec (n.natAbs / 100) ++ '.' :: padStart2 (natToDec (n.natAbs % 100)) =
        a :: (t ++ '.' :: padStart2 (natToDec (n.natAbs % 100))) := by rw [hat]; rfl
    rw [if_neg hneg, hconsform, jsParseFloat_digit_head _ hadig, ← hconsform,
      jsParseFloatMag_natAbs]
    have hnm : ((n.natAbs : ℕ) : ℚ) = (n : ℚ) := by
      rw [Int.cast_natAbs, Int.cast_abs]
      exact abs_of_nonneg (by exact_mod_cast not_lt.mp hneg)
    rw [hnm]

theorem floor_round2_mul (q : ℚ) : ⌊(round2 q) * 100 + 1/2⌋ = ⌊q * 100 + 1/2⌋ := by
  set n : ℤ := ⌊q * 100 + 1/2⌋ with hn
  have h1 : (round2 q) * 100 + 1/2 = (n : ℚ) + 1/2 := by
    rw [round2, ← hn]
    field_simp
  rw [h1, Int.floor_int_add]
  have h2 : ⌊(1 : ℚ)/2⌋ = 0 := by
    rw [Int.floor_eq_zero_iff]
    constructor <;> norm_num
  rw [h2, add_zero]

theorem toFixed2_round2 (q : ℚ) : toFixed2 (round2 q) = toFixed2 q := by
  simp only [toFixed2, floor_round2_mul]

theorem round2_round2 (q : ℚ) : round2 (round2 q) = round2 q := by
  have h := floor_round2_mul q
  simp only [round2] at h ⊢
  rw [h]

theorem pipe_not_mem_toFixed2 (q : ℚ) : '|' ∉ toFixed2 q := by
  intro hmem
  simp only [toFixed2] at hmem
  have hcore : ∀ c ∈ natToDec (⌊q * 100 + 1/2⌋.natAbs / 100) ++
      '.' :: padStart2 (natToDec (⌊q * 100 + 1/2⌋.natAbs % 100)), c ≠ '|' := by
    intro c hc
    rcases List.mem_append.mp hc with h' | h'
    · exact (isDigitB_char_facts (natToDec_all_digits _ c h')).2.2.2.2
    · rcases List.mem_cons.mp h' with h'' | h''
      · subst h''; decide
      · exact (isDigitB_char_facts
          (padStart2_all_digits (natToDec_all_digits _) c h'')).2.2.2.2
  by_cases hneg : ⌊q * 100 + 1/2⌋ < 0
  · simp only [hneg, if_true, List.mem_cons] at hmem
    rcases hmem with h' | h'
    · exact absurd h'.symm (by decide)
    · exact hcore _ h' rfl
  · simp only [hneg, if_false] at hmem
    exact hcore _ hmem rfl

/-! ### The data model and `mergeEntriesByMaxCount` -/

/-- `TravelEntry` from `src/types.ts`: one journey charge. -/
structure TravelEntry where
  date : Str
  amount : ℚ
deriving DecidableEq

/-- The merge key `` `${e.date}|${e.amount.toFixed(2)}` `` of
`mergeEntriesByMaxCount`. -/
def entryKey (e : TravelEntry) : Str := e.date ++ '|' :: toFixed2 e.amount

/-- The count map built by the `count` closure of `mergeEntriesByMaxCount`,
read as a function: `m.get(k) || 0`. -/
def countKey (arr : List TravelEntry) (k : Str) : Nat :=
  arr.countP (fun e => entryKey e == k)

/-- JS `String.prototype.split` on a single-character separator. -/
def splitOnChar (sep : Char) : Str → List Str
  | [] => [[]]
  | c :: t =>
    if c = sep then [] :: splitOnChar sep t
    else
      match splitOnChar sep t with
      | [] => [[c]]
      | h :: r => (c :: h) :: r

/-- Iteration order of `new Set(xs)`: each element once, at its first
occurrence (`seen` carries the elements already emitted). -/
def firstDedupAux (seen : List Str) : List Str → List Str
  | [] => []
  | x :: t => if x ∈ seen then firstDedupAux seen t else x :: firstDedupAux (x :: seen) t

def firstDedup (l : List Str) : List Str := firstDedupAux [] l

/-- Reconstruction of an entry from a key, as the loop body of
`mergeEntriesByMaxCount` does: `const [date, amountStr] = k.split("|")`,
`amount = parseFloat(amountStr)`.  `parseFloat` of a malformed component
would be `NaN`, which `ℚ` cannot represent; `.getD 0` stands in for it and
is never exercised for keys produced by `entryKey` on pipe-free dates. -/
def entryOfKey (k : Str) : TravelEntry :=
  let parts := splitOnChar '|' k
  { date := parts.getD 0 [], amount := (jsParseFloat (parts.getD 1 [])).getD 0 }

/-- `new Set([...ca.keys(), ...cb.keys()])` of `mergeEntriesByMaxCount`. -/
def mergeKeys (a b : List TravelEntry) : List Str :=
  firstDedup (firstDedup (a.map entryKey) ++ firstDedup (b.map entryKey))

/-- `mergeEntriesByMaxCount` from `src/services/geminiService.ts`: for each
key of either input, emit `max(ca.get(k) || 0, cb.get(k) || 0)` copies of the
entry reconstructed from the key. -/
def mergeEntriesByMaxCount (a b : List TravelEntry) : List TravelEntry :=
  (mergeKeys a b).flatMap (fun k =>
    if 0 < max (countKey a k) (countKey b k) then
      List.replicate (max (countKey a k) (countKey b k)) (entryOfKey k)
    else [])

theorem mem_firstDedupAux (y : Str) :
    ∀ (l : List Str) (seen : List Str),
      y ∈ firstDedupAux seen l ↔ (y ∈ l ∧ y ∉ seen) := by
  intro l
  induction l with
  | nil => intro seen; simp [firstDedupAux]
  | cons x t ih =>
    intro seen
    rw [firstDedupAux]
    by_cases hx : x ∈ seen
    · rw [if_pos hx, ih seen]
      constructor
      · rintro ⟨hy, hns⟩
        exact ⟨List.mem_cons.mpr (Or.inr hy), hns⟩
      · rintro ⟨hy, hns⟩
        rcases List.mem_cons.mp hy with rfl | hy'
        · exact absurd hx hns
        · exact ⟨hy', hns⟩
    · rw [if_neg hx]
      constructor
      · intro hmem
        rcases List.mem_cons.mp hmem with rfl | hmem'
        · exact ⟨List.mem_cons.mpr (Or.inl rfl), hx⟩
        · obtain ⟨hy, hns⟩ := (ih (x :: seen)).mp hmem'
          exact ⟨List.mem_cons.mpr (Or.inr hy),
            fun hcon => hns (List.mem_cons.mpr (Or.inr hcon))⟩
      · rintro ⟨hy, hns⟩
        rcases List.mem_cons.mp hy with rfl | hy'
        · exact List.mem_cons.mpr (Or.inl rfl)
        · by_cases hxy : y = x
          · exact List.mem_cons.mpr (Or.inl hxy)
          · refine List.mem_cons.mpr (Or.inr ((ih (x :: seen)).mpr ⟨hy', ?_⟩))
            intro hcon
            rcases List.mem_cons.mp hcon with h' | h'
            · exact hxy h'
            · exact hns h'

theorem mem_firstDedup (y : Str) (l : List Str) : y ∈ firstDedup l ↔ y ∈ l := by
  unfold firstDedup
  rw [mem_firstDedupAux]
  simp

theorem nodup_firstDedupAux :
    ∀ (l : List Str) (seen : List Str), (firstDedupAux seen l).Nodup := by
  intro l
  induction l with
  | nil => intro seen; simp [firstDedupAux]
  | cons x t ih =>
    intro seen
    rw [firstDedupAux]
    by_cases hx : x ∈ seen
    · rw [if_pos hx]; exact ih seen
    · rw [if_neg hx]
      refine List.nodup_cons.mpr ⟨?_, ih (x :: seen)⟩
      intro hcon
      exact ((mem_firstDedupAux x t (x :: seen)).mp hcon).2 (List.mem_cons.mpr (Or.inl rfl))

theorem nodup_firstDedup (l : List Str) : (firstDedup l).Nodup :=
  nodup_firstDedupAux l []

theorem splitOnChar_no_sep {sep : Char} : ∀ {s : Str}, sep ∉ s →
    splitOnChar sep s = [s] := by
  intro s
  induction s with
  | nil => intro _; rfl
  | cons c t ih =>
    intro h
    have hc : ¬(c = sep) := fun hcon => h (by simp [hcon])
    have ht : sep ∉ t := fun hcon => h (by simp [hcon])
    rw [splitOnChar, if_neg hc, ih ht]

theorem splitOnChar_append {sep : Char} {d : Str} (r : Str) (hd : sep ∉ d) :
    splitOnChar sep (d ++ sep :: r) = d :: splitOnChar sep r := by
  induction d with
  | nil => simp [splitOnChar]
  | cons c t ih =>
    have hc : ¬(c = sep) := fun hcon => hd (by simp [hcon])
    have ht : sep ∉ t := fun hcon => hd (by simp [hcon])
    rw [List.cons_append, splitOnChar, if_neg hc, ih ht]

theorem entryOfKey_entryKey {e : TravelEntry} (h : '|' ∉ e.date) :
    entryOfKey (entryKey e) = ⟨e.date, round2 e.amount⟩ := by
  unfold entryOfKey entryKey
  rw [splitOnChar_append _ h, splitOnChar_no_sep (pipe_not_mem_toFixed2 e.amount)]
  simp only [List.getD, List.get?, jsParseFloat_toFixed2, Option.getD_some]

theorem entryKey_entryOfKey_entryKey {e : TravelEntry} (h : '|' ∉ e.date) :
    entryKey (entryOfKey (entryKey e)) = entryKey e := by
  rw [entryOfKey_entryKey h]
  unfold entryKey
  simp only
  rw [toFixed2_round2]

theorem countKey_append (a b : List TravelEntry) (k : Str) :
    countKey (a ++ b) k = countKey a k + countKey b k := by
  simp [countKey, List.countP_append]

theorem countKey_replicate (n : Nat) (e : TravelEntry) (k : Str) :
    countKey (List.replicate n e) k = if entryKey e = k then n else 0 := by
  induction n with
  | zero => simp [countKey]
  | succ n ih =>
    rw [List.replicate_succ]
    simp only [countKey, List.countP_cons] at *
    by_cases h : entryKey e = k
    · simp only [h, if_true, beq_iff_eq] at *
      omega
    · simp only [h, if_false, beq_iff_eq] at *
      omega

theorem countKey_eq_zero {arr : List TravelEntry} {k : Str}
    (h : k ∉ arr.map entryKey) : countKey arr k = 0 := by
  rw [countKey, List.countP_eq_zero]
  intro e he
  simp only [beq_iff_eq]
  intro hcon
  exact h (List.mem_map.mpr ⟨e, he, hcon⟩)

theorem countKey_flatMap (keys : List Str) (f : Str → List TravelEntry) (k : Str) :
    countKey (keys.flatMap f) k = (keys.map (fun k' => countKey (f k') k)).sum := by
  induction keys with
  | nil => simp [countKey]
  | cons x t ih =>
    rw [List.flatMap_cons, countKey_append, List.map_cons, List.sum_cons, ih]

theorem sum_map_ite_eq {β : Type} [DecidableEq β] (keys : List β) (g : β → Nat) (k : β)
    (hnd : keys.Nodup) :
    (keys.map (fun k' => if k' = k then g k' else 0)).sum =
      if k ∈ keys then g k else 0 := by
  induction keys with
  | nil => simp
  | cons x t ih =>
    rw [List.map_cons, List.sum_cons, ih (List.nodup_cons.mp hnd).2]
    by_cases hx : x = k
    · subst hx
      have hnotin : x ∉ t := (List.nodup_cons.mp hnd).1
      simp [hnotin]
    · have hiff : (k ∈ x :: t) ↔ (k ∈ t) := by
        constructor
        · intro hm
          rcases List.mem_cons.mp hm with h' | h'
          · exact absurd h'.symm hx
          · exact h'
        · exact fun hm => List.mem_cons.mpr (Or.inr hm)
      rw [if_neg hx, Nat.zero_add]
      exact if_congr hiff.symm rfl rfl

theorem nodup_mergeKeys (a b : List TravelEntry) : (mergeKeys a b).Nodup :=
  nodup_firstDedup _

theorem mem_mergeKeys (a b : List TravelEntry) (k' : Str) :
    k' ∈ mergeKeys a b ↔ (k' ∈ a.map entryKey ∨ k' ∈ b.map entryKey) := by
  unfold mergeKeys
  rw [mem_firstDedup, List.mem_append, mem_firstDedup, mem_firstDedup]

/-- Count correctness of the merge: for every key, the merged list holds
exactly the larger of the two input counts. -/
theorem countKey_merge (a b : List TravelEntry)
    (ha : ∀ e ∈ a, '|' ∉ e.date) (hb : ∀ e ∈ b, '|' ∉ e.date) (k : Str) :
    countKey (mergeEntriesByMaxCount a b) k = max (countKey a k) (countKey b k) := by
  have hwfkey : ∀ k' ∈ mergeKeys a b, entryKey (entryOfKey k') = k' := by
    intro k' hk'
    rcases (mem_mergeKeys a b k').mp hk' with h' | h'
    · rcases List.mem_map.mp h' with ⟨e, he, rfl⟩
      exact entryKey_entryOfKey_entryKey (ha e he)
    · rcases List.mem_map.mp h' with ⟨e, he, rfl⟩
      exact entryKey_entryOfKey_entryKey (hb e he)
  unfold mergeEntriesByMaxCount
  rw [countKey_flatMap]
  have hsimp : ∀ k' ∈ mergeKeys a b,
      countKey (if 0 < max (countKey a k') (countKey b k') then
        List.replicate (max (countKey a k') (countKey b k')) (entryOfKey k') else []) k =
      (if k' = k then max (countKey a k') (countKey b k') else 0) := by
    intro k' hk'
    have hrepl : (if 0 < max (countKey a k') (countKey b k') then
        List.replicate (max (countKey a k') (countKey b k')) (entryOfKey k') else []) =
        List.replicate (max (countKey a k') (countKey b k')) (entryOfKey k') := by
      by_cases hpos : 0 < max (countKey a k') (countKey b k')
      · rw [if_pos hpos]
      · rw [if_neg hpos]
        have hz : max (countKey a k') (countKey b k') = 0 := by omega
        rw [hz, List.replicate_zero]
    rw [hrepl, countKey_replicate, hwfkey k' hk']
  rw [List.map_congr_left hsimp, sum_map_ite_eq _ _ _ (nodup_mergeKeys a b)]
  by_cases hk : k ∈ mergeKeys a b
  · rw [if_pos hk]
  · rw [if_neg hk]
    have hka : countKey a k = 0 := by
      apply countKey_eq_zero
      intro hcon
      exact hk ((mem_mergeKeys a b k).mpr (Or.inl hcon))
    have hkb : countKey b k = 0 := by
      apply countKey_eq_zero
      intro hcon
      exact hk ((mem_mergeKeys a b k).mpr (Or.inr hcon))
    rw [hka, hkb]
    simp

/-! ### Canonical entries and algebraic properties of the merge -/

/-- An entry as the data model intends it: a date that cannot contain the
`"|"` key separator (no `YYYY-MM-DD` date can) and an amount that already has
at most two decimal places, so that the merge's print-and-reparse of the
amount is the identity. -/
def canonicalEntry (e : TravelEntry) : Prop :=
  '|' ∉ e.date ∧ round2 e.amount = e.amount

instance : DecidablePred canonicalEntry := fun e => by
  unfold canonicalEntry
  infer_instance

theorem entryOfKey_entryKey_canonical {e : TravelEntry} (h : canonicalEntry e) :
    entryOfKey (entryKey e) = e := by
  rw [entryOfKey_entryKey h.1, h.2]

theorem canonical_key_inj {e₁ e₂ : TravelEntry} (h₁ : canonicalEntry e₁)
    (h₂ : canonicalEntry e₂) (hk : entryKey e₁ = entryKey e₂) : e₁ = e₂ := by
  have h := entryOfKey_entryKey_canonical h₁
  rw [hk, entryOfKey_entryKey_canonical h₂] at h
  exact h.symm

theorem canonical_mem_merge {a b : List TravelEntry}
    (ha : ∀ e ∈ a, '|' ∉ e.date) (hb : ∀ e ∈ b, '|' ∉ e.date) :
    ∀ x ∈ mergeEntriesByMaxCount a b, canonicalEntry x := by
  intro x hx
  unfold mergeEntriesByMaxCount at hx
  rcases List.mem_flatMap.mp hx with ⟨k', hk', hxin⟩
  have hx_eq : x = entryOfKey k' := by
    by_cases hpos : 0 < max (countKey a k') (countKey b k')
    · rw [if_pos hpos] at hxin
      exact List.eq_of_mem_replicate hxin
    · rw [if_neg hpos] at hxin
      exact absurd hxin (List.not_mem_nil x)
  have hpipe : ∃ e, ('|' ∉ e.date) ∧ k' = entryKey e := by
    rcases (mem_mergeKeys a b k').mp hk' with h' | h'
    · rcases List.mem_map.mp h' with ⟨e, he, rfl⟩
      exact ⟨e, ha e he, rfl⟩
    · rcases List.mem_map.mp h' with ⟨e, he, rfl⟩
      exact ⟨e, hb e he, rfl⟩
  rcases hpipe with ⟨e, hpe, rfl⟩
  rw [hx_eq, entryOfKey_entryKey hpe]
  exact ⟨hpe, round2_round2 e.amount⟩

theorem countKey_entryKey_eq_count {l : List TravelEntry} {e : TravelEntry}
    (hl : ∀ x ∈ l, canonicalEntry x) (he : canonicalEntry e) :
    countKey l (entryKey e) = l.count e := by
  rw [countKey, List.count, List.countP_congr]
  intro x hx
  simp only [beq_iff_eq]
  constructor
  · intro h; exact canonical_key_inj (hl x hx) he h
  · intro h; rw [h]

theorem perm_of_countKey_eq {l₁ l₂ : List TravelEntry}
    (h₁ : ∀ e ∈ l₁, canonicalEntry e) (h₂ : ∀ e ∈ l₂, canonicalEntry e)
    (hc : ∀ k, countKey l₁ k = countKey l₂ k) : l₁.Perm l₂ := by
  rw [List.perm_iff_count]
  intro e
  by_cases hmem : e ∈ l₁ ∨ e ∈ l₂
  · have hce : canonicalEntry e := by
      rcases hmem with h | h
      exacts [h₁ e h, h₂ e h]
    rw [← countKey_entryKey_eq_count h₁ hce, ← countKey_entryKey_eq_count h₂ hce, hc]
  · push_neg at hmem
    rw [List.count_eq_zero.mpr hmem.1, List.count_eq_zero.mpr hmem.2]

/-- Binary trees of entry lists: an arbitrary order of pairwise
`mergeEntriesByMaxCount` folds over the leaf multisets. -/
inductive MTree where
  | leaf (entries : List TravelEntry) : MTree
  | node (l r : MTree) : MTree

def MTree.eval : MTree → List TravelEntry
  | .leaf es => es
  | .node l r => mergeEntriesByMaxCount l.eval r.eval

def MTree.leaves : MTree → List (List TravelEntry)
  | .leaf es => [es]
  | .node l r => l.leaves ++ r.leaves

/-- All leaves of the fold tree consist of canonical entries. -/
def MTree.allCanonical (t : MTree) : Prop :=
  ∀ es ∈ t.leaves, ∀ e ∈ es, canonicalEntry e

instance (t : MTree) : Decidable t.allCanonical := by
  unfold MTree.allCanonical
  infer_instance

theorem MTree.eval_canonical : ∀ (t : MTree), t.allCanonical →
    ∀ e ∈ t.eval, canonicalEntry e := by
  intro t
  induction t with
  | leaf es =>
    intro h e he
    exact h es (by simp [MTree.leaves]) e he
  | node l r ihl ihr =>
    intro h e he
    have hl : l.allCanonical := fun es hes => h es (by simp [MTree.leaves, hes])
    have hr : r.allCanonical := fun es hes => h es (by simp [MTree.leaves, hes])
    exact canonical_mem_merge (fun x hx => (ihl hl x hx).1) (fun x hx => (ihr hr x hx).1)
      e he

theorem foldr_max_append (L₁ L₂ : List Nat) :
    (L₁ ++ L₂).foldr max 0 = max (L₁.foldr max 0) (L₂.foldr max 0) := by
  induction L₁ with
  | nil => simp
  | cons x t ih => simp [List.foldr_cons, ih, Nat.max_assoc]

theorem foldr_max_perm {L₁ L₂ : List Nat} (h : L₁.Perm L₂) :
    L₁.foldr max 0 = L₂.foldr max 0 := by
  induction h with
  | nil => rfl
  | cons x _ ih => simp [List.foldr_cons, ih]
  | swap x y l => simp [List.foldr_cons, Nat.max_left_comm]
  | trans _ _ ih₁ ih₂ => rw [ih₁, ih₂]

theorem countKey_eval (t : MTree) (ht : t.allCanonical) (k : Str) :
    countKey t.eval k = (t.leaves.map (fun es => countKey es k)).foldr max 0 := by
  induction t with
  | leaf es => simp [MTree.eval, MTree.leaves]
  | node l r ihl ihr =>
    have hl : l.allCanonical := fun es hes => ht es (by simp [MTree.leaves, hes])
    have hr : r.allCanonical := fun es hes => ht es (by simp [MTree.leaves, hes])
    have hlc := MTree.eval_canonical l hl
    have hrc := MTree.eval_canonical r hr
    rw [MTree.eval, countKey_merge _ _ (fun e he => (hlc e he).1) (fun e he => (hrc e he).1),
      ihl hl, ihr hr, MTree.leaves, List.map_append, foldr_max_append]

/-! ### Claims C1 and C9 -/

/-- Fixture date used by the concrete witnesses. -/
def dateLit1 : Str := (r"2025-10-14").toList

/-- Second fixture date used by the concrete witnesses. -/
def dateLit2 : Str := (r"2025-10-15").toList

/-- C1: for every pair of entry multisets `A` and `B` whose dates do not
contain the `'|'` key separator (true of every `YYYY-MM-DD` date of the data
model) and every key — in particular every key `entryKey ⟨date, amount⟩`,
which encodes the pair (date, amount rounded to 2 decimals) — the number of
entries of `mergeEntriesByMaxCount A B` carrying that key equals the maximum
of the numbers of entries carrying it in `A` and in `B`. -/
theorem c1_merge_count_is_max (a b : List TravelEntry)
    (ha : ∀ e ∈ a, '|' ∉ e.date) (hb : ∀ e ∈ b, '|' ∉ e.date) (k : Str) :
    countKey (mergeEntriesByMaxCount a b) k = max (countKey a k) (countKey b k) :=
  countKey_merge a b ha hb k

/-- Witness for C1 at a concrete input: a key occurring twice in `A` and once
in `B` occurs `max 2 1 = 2` times in the merge. -/
theorem c1_merge_count_is_max_witness :
    countKey (mergeEntriesByMaxCount
        [⟨dateLit1, (2.8 : ℚ)⟩, ⟨dateLit1, (2.8 : ℚ)⟩]
        [⟨dateLit1, (2.8 : ℚ)⟩, ⟨dateLit2, (1.7 : ℚ)⟩])
      (entryKey ⟨dateLit1, (2.8 : ℚ)⟩) = 2 := by
  rw [c1_merge_count_is_max _ _ (by decide) (by decide)]
  decide

/-- C9 counterexample: `merge(A, A) = A` fails as stated.  For
`A = [{date, 2.125}]` the merge reconstructs the entry from its key
`"…|2.13"`, so the merged multiset is `[{date, 2.13}]`, not `A`. -/
theorem c9_counterexample :
    ¬ ((mergeEntriesByMaxCount [⟨dateLit1, (2.125 : ℚ)⟩]
        [⟨dateLit1, (2.125 : ℚ)⟩]).Perm [⟨dateLit1, (2.125 : ℚ)⟩]) := by
  decide

/-- C9 (amended): restricted to multisets of canonical entries — dates
without `'|'` (all `YYYY-MM-DD` dates) and amounts already rounded to two
decimal places — the merge is idempotent (`merge(A,A) ~ A`), has the empty
multiset as identity (`merge(∅,B) ~ B`), and every pairwise fold of the same
leaf multisets evaluates to the same multiset regardless of fold order. -/
theorem c9_merge_algebra :
    (∀ A : List TravelEntry, (∀ e ∈ A, canonicalEntry e) →
       (mergeEntriesByMaxCount A A).Perm A) ∧
    (∀ B : List TravelEntry, (∀ e ∈ B, canonicalEntry e) →
       (mergeEntriesByMaxCount [] B).Perm B) ∧
    (∀ t₁ t₂ : MTree, t₁.allCanonical → t₂.allCanonical →
       t₁.leaves.Perm t₂.leaves → t₁.eval.Perm t₂.eval) := by
  refine ⟨?_, ?_, ?_⟩
  · intro A hA
    refine perm_of_countKey_eq
      (canonical_mem_merge (fun e he => (hA e he).1) (fun e he => (hA e he).1)) hA ?_
    intro k
    rw [countKey_merge _ _ (fun e he => (hA e he).1) (fun e he => (hA e he).1)]
    exact Nat.max_self _
  · intro B hB
    have hnil : ∀ e ∈ ([] : List TravelEntry), '|' ∉ e.date := by
      intro e he; cases he
    refine perm_of_countKey_eq
      (canonical_mem_merge hnil (fun e he => (hB e he).1)) hB ?_
    intro k
    rw [countKey_merge _ _ hnil (fun e he => (hB e he).1)]
    simp [countKey]
  · intro t₁ t₂ h₁ h₂ hp
    refine perm_of_countKey_eq (MTree.eval_canonical t₁ h₁) (MTree.eval_canonical t₂ h₂) ?_
    intro k
    rw [countKey_eval t₁ h₁ k, countKey_eval t₂ h₂ k]
    exact foldr_max_perm (hp.map _)

/-- Witness for the amended C9 at concrete inputs: idempotence, the empty
identity, and a two-leaf fold evaluated in both orders. -/
theorem c9_merge_algebra_witness :
    (mergeEntriesByMaxCount [⟨dateLit1, (2.8 : ℚ)⟩, ⟨dateLit1, (2.8 : ℚ)⟩]
        [⟨dateLit1, (2.8 : ℚ)⟩, ⟨dateLit1, (2.8 : ℚ)⟩]).Perm
      [⟨dateLit1, (2.8 : ℚ)⟩, ⟨dateLit1, (2.8 : ℚ)⟩] ∧
    (mergeEntriesByMaxCount [] [⟨dateLit2, (1.7 : ℚ)⟩]).Perm [⟨dateLit2, (1.7 : ℚ)⟩] ∧
    (MTree.eval (.node (.leaf [⟨dateLit1, (2.8 : ℚ)⟩]) (.leaf [⟨dateLit2, (1.7 : ℚ)⟩]))).Perm
      (MTree.eval (.node (.leaf [⟨dateLit2, (1.7 : ℚ)⟩]) (.leaf [⟨dateLit1, (2.8 : ℚ)⟩]))) := by
  refine ⟨c9_merge_algebra.1 _ (by decide), c9_merge_algebra.2.1 _ (by decide),
    c9_merge_algebra.2.2 _ _ (by decide) (by decide) (by decide)⟩

/-! ### The heuristic journey parser (`parseJourneysHeuristically`)

Each regular expression of the source is hand-translated into a matching
function.  JS regex search tries positions left to right (`scanStr`); at a
given position the backtracking for these patterns is deterministic: every
quantified atom (`\d+`, `\s+`, `\w*`, `\d{1,2}`) is followed either by a
character class disjoint from the atom or by the end of the pattern, so the
maximal-munch parse is the only candidate. -/

/-- Require one specific character. -/
def expectChar (c : Char) : Str → Option Str
  | [] => none
  | x :: t => if x = c then some t else none

/-- Maximal run of digits and the rest. -/
def takeDigitRun (l : Str) : Str × Str := (l.takeWhile isDigitB, l.dropWhile isDigitB)

/-- Maximal run of whitespace and the rest. -/
def takeWsRun (l : Str) : Str × Str := (l.takeWhile isJsWs, l.dropWhile isJsWs)

/-- Maximal run of word characters and the rest (`\w*`). -/
def takeWordRun (l : Str) : Str × Str := (l.takeWhile isWordChar, l.dropWhile isWordChar)

/-- Exactly `n` digits (`\d{n}`); anything may follow. -/
def takeDigitsN : Nat → Str → Option (Str × Str)
  | 0, l => some ([], l)
  | _ + 1, [] => none
  | n + 1, c :: t =>
    if isDigitB c then (takeDigitsN n t).map (fun p => (c :: p.1, p.2)) else none

/-- `\d{1,2}` in front of a non-digit requirement: the maximal digit run,
failing when it is empty or longer than two. -/
def takeDigits12 (l : Str) : Option (Str × Str) :=
  let dp := takeDigitRun l
  if dp.1 = [] ∨ 2 < dp.1.length then none else some dp

/-- `\s+` in front of a non-whitespace requirement. -/
def expectWs (l : Str) : Option Str :=
  let wp := takeWsRun l
  if wp.1 = [] then none else some wp.2

/-- Case-insensitive literal match (`pat` must already be lowercase);
returns the consumed original characters and the rest. -/
def matchCaseInsAt : Str → Str → Option (Str × Str)
  | [], l => some ([], l)
  | _ :: _, [] => none
  | p :: pt, c :: t =>
    if asciiLower c = p then (matchCaseInsAt pt t).map (fun q => (c :: q.1, q.2)) else none

/-- Ordered alternation of case-insensitive literals. -/
def matchAltsAt (alts : List Str) (l : Str) : Option (Str × Str) :=
  alts.findSome? (fun p => matchCaseInsAt p l)

/-- Leftmost-position regex search: try the pattern at each position. -/
def scanStr {β : Type} (f : Str → Option β) : Str → Option β
  | [] => f []
  | c :: t =>
    match f (c :: t) with
    | some r => some r
    | none => scanStr f t

/-- The month alternation `(Jan|Feb|Mar|Apr|May|Jun|Jul|Aug|Sep|Sept|Oct|Nov|Dec)`
(lowercased; the match itself is case-insensitive). -/
def monthAlts : List Str :=
  [(r"jan").toList, (r"feb").toList, (r"mar").toList, (r"apr").toList,
   (r"may").toList, (r"jun").toList, (r"jul").toList, (r"aug").toList,
   (r"sep").toList, (r"sept").toList, (r"oct").toList, (r"nov").toList,
   (r"dec").toList]

/-- The weekday alternation `(Mon|Tue|Wed|Thu|Fri|Sat|Sun)` (lowercased). -/
def weekdayAlts : List Str :=
  [(r"mon").toList, (r"tue").toList, (r"wed").toList, (r"thu").toList,
   (r"fri").toList, (r"sat").toList, (r"sun").toList]

/-- The `monthMap` lookup table (the `sept` entry is unreachable through the
three-character slice, exactly as in the source). -/
def monthNum (s : Str) : Option Nat :=
  if s = (r"jan").toList then some 1
  else if s = (r"feb").toList then some 2
  else if s = (r"mar").toList then some 3
  else if s = (r"apr").toList then some 4
  else if s = (r"may").toList then some 5
  else if s = (r"jun").toList then some 6
  else if s = (r"jul").toList then some 7
  else if s = (r"aug").toList then some 8
  else if s = (r"sep").toList then some 9
  else if s = (r"sept").toList then some 9
  else if s = (r"oct").toList then some 10
  else if s = (r"nov").toList then some 11
  else if s = (r"dec").toList then some 12
  else none

/-- `/(\d{4})-(\d{2})-(\d{2})/` at one position; captures `(y, mo, d)`. -/
def tryIsoAt (l : Str) : Option (Str × Str × Str) := do
  let (y, r1) ← takeDigitsN 4 l
  let r2 ← expectChar '-' r1
  let (mo, r3) ← takeDigitsN 2 r2
  let r4 ← expectChar '-' r3
  let (d, _) ← takeDigitsN 2 r4
  pure (y, mo, d)

/-- `/(\d{1,2})\s+(Month)\w*\s+(\d{4})/i` at one position;
captures `(day, month text, year)`. -/
def tryDMYAt (l : Str) : Option (Str × Str × Str) := do
  let (ds, r1) ← takeDigits12 l
  let r2 ← expectWs r1
  let (mt, r3) ← matchAltsAt monthAlts r2
  let r5 ← expectWs (takeWordRun r3).2
  let (y, _) ← takeDigitsN 4 r5
  pure (ds, mt, y)

/-- `/(Weekday)\s+(\d{1,2})\s+(Month)\w*(?:\s+(\d{4}))?/i` at one position;
captures `(day, month text, optional year)`. -/
def tryWdAt (l : Str) : Option (Str × Str × Option Str) := do
  let (_, r1) ← matchAltsAt weekdayAlts l
  let r2 ← expectWs r1
  let (ds, r3) ← takeDigits12 r2
  let r4 ← expectWs r3
  let (mt, r5) ← matchAltsAt monthAlts r4
  let y? : Option Str := do
    let r7 ← expectWs (takeWordRun r5).2
    let (y, _) ← takeDigitsN 4 r7
    pure y
  pure (ds, mt, y?)

/-- `toISO` of the source: `` `${y}-${pad2 mm}-${pad2 d}` `` with `mm` either
the already-parsed month number or the `monthMap` lookup of the lowercased
three-character slice (`.getD 0` stands in for the JS `undefined` of a missed
lookup, which regex-matched month text never produces). -/
def toISO (y : Str) (m : Sum Str Nat) (d : Str) : Str :=
  let mm : Nat :=
    match m with
    | .inr n => n
    | .inl s => (monthNum ((s.take 3).map asciiLower)).getD 0
  y ++ '-' :: (padStart2 (natToDec mm) ++ '-' :: padStart2 d)

/-- The date-header detection chain of `parseJourneysHeuristically`:
ISO first, then `D Month YYYY`, then `Weekday D Month [YYYY]` (the current
year `cy`, JS `new Date().getFullYear()`, fills an omitted year). -/
def matchDateHeader (cy : Nat) (line : Str) : Option Str :=
  match scanStr tryIsoAt line with
  | some (y, mo, d) => some (toISO y (Sum.inr (decValue mo)) d)
  | none =>
    match scanStr tryDMYAt line with
    | some (d, mt, y) => some (toISO y (Sum.inl mt) d)
    | none =>
      match scanStr tryWdAt line with
      | some (d, mt, y?) => some (toISO (y?.getD (natToDec cy)) (Sum.inl mt) d)
      | none => none

/-- `/£?\s*(\d+\.\d{2})\b/` at one position; returns the capture. -/
def tryAmtAt (l : Str) : Option Str :=
  let r0 := match l with
    | '£' :: t => t
    | _ => l
  let r1 := r0.dropWhile isJsWs
  let dp := takeDigitRun r1
  if dp.1 = [] then none
  else
    match expectChar '.' dp.2 with
    | none => none
    | some r3 =>
      match takeDigitsN 2 r3 with
      | none => none
      | some (fs, r4) =>
        match r4 with
        | [] => some (dp.1 ++ '.' :: fs)
        | c :: _ => if isWordChar c then none else some (dp.1 ++ '.' :: fs)

/-- Leftmost amount match of `line.match(/£?\s*(\d+\.\d{2})\b/)`. -/
def findAmountCapture (line : Str) : Option Str := scanStr tryAmtAt line

/-- `auto\s*top\s*up` at one position. -/
def tryAutoTopUpAt (l : Str) : Option Unit := do
  let (_, r1) ← matchCaseInsAt ((r"auto").toList) l
  let (_, r2) ← matchCaseInsAt ((r"top").toList) (r1.dropWhile isJsWs)
  let (_, _) ← matchCaseInsAt ((r"up").toList) (r2.dropWhile isJsWs)
  pure ()

/-- `auto\s*topup` at one position (subsumed by the previous alternative,
kept to mirror the source's alternation). -/
def tryAutoTopupJoinedAt (l : Str) : Option Unit := do
  let (_, r1) ← matchCaseInsAt ((r"auto").toList) l
  let (_, _) ← matchCaseInsAt ((r"topup").toList) (r1.dropWhile isJsWs)
  pure ()

/-- Case-insensitive substring test for one lowercase literal. -/
def containsCI (l : Str) (pat : Str) : Bool :=
  (scanStr (fun s => matchCaseInsAt pat s) l).isSome

/-- The exclusion regex
`/cap|capped|daily cap|weekly cap|total|payment|auto\s*top\s*up|auto\s*topup|refund|credit|adjustment/i`
as an ordered disjunction of substring tests. -/
def exclusionTest (line : Str) : Bool :=
  containsCI line ((r"cap").toList) ||
  containsCI line ((r"capped").toList) ||
  containsCI line ((r"daily cap").toList) ||
  containsCI line ((r"weekly cap").toList) ||
  containsCI line ((r"total").toList) ||
  containsCI line ((r"payment").toList) ||
  (scanStr tryAutoTopUpAt line).isSome ||
  (scanStr tryAutoTopupJoinedAt line).isSome ||
  containsCI line ((r"refund").toList) ||
  containsCI line ((r"credit").toList) ||
  containsCI line ((r"adjustment").toList)

/-- `raw.replace(/\s+/g, " ")`, written with an explicit in-run flag so the
recursion is structural: each maximal whitespace run becomes one space. -/
def collapseWsAux : Bool → Str → Str
  | _, [] => []
  | inRun, c :: t =>
    if isJsWs c then
      if inRun then collapseWsAux true t else ' ' :: collapseWsAux true t
    else c :: collapseWsAux false t

def collapseWs (l : Str) : Str := collapseWsAux false l

/-- JS `String.prototype.trim`. -/
def trimJs (l : Str) : Str := ((l.dropWhile isJsWs).reverse.dropWhile isJsWs).reverse

/-- The per-line normalisation `raw.replace(/\s+/g, " ").trim()`. -/
def normalizeWs (raw : Str) : Str := trimJs (collapseWs raw)

/-- `text.split(/\r?\n/)`. -/
def splitJsLines : Str → List Str
  | [] => [[]]
  | '\r' :: '\n' :: t => [] :: splitJsLines t
  | '\n' :: t => [] :: splitJsLines t
  | c :: t =>
    match splitJsLines t with
    | [] => [[c]]
    | h :: r => (c :: h) :: r

/-- `text.split(/\r?\n/).map(l => l.trim()).filter(Boolean)`. -/
def prepLines (text : Str) : List Str :=
  ((splitJsLines text).map trimJs).filter (fun l => !l.isEmpty)

/-- The entries a line contributes once `currentDate` has been updated to
`cur'`: excluded lines contribute nothing; otherwise a line with an amount
match and an active date contributes one entry when the parsed amount is a
number greater than zero. -/
def heuristicEmit (line : Str) (cur' : Option Str) : List TravelEntry :=
  if exclusionTest line then []
  else
    match findAmountCapture line, cur' with
    | some cap, some d =>
      match jsParseFloat cap with
      | some amount => if 0 < amount then [⟨d, amount⟩] else []
      | none => []
    | _, _ => []

/-- One iteration of the line loop of `parseJourneysHeuristically`: update
`currentDate` from a date header, then apply the exclusion and amount
logic of `heuristicEmit` to the same line. -/
def heuristicStep (cy : Nat) (cur : Option Str) (raw : Str) :
    Option Str × List TravelEntry :=
  let line := normalizeWs raw
  let cur' :=
    match matchDateHeader cy line with
    | some d => some d
    | none => cur
  (cur', heuristicEmit line cur')

def heuristicLoop (cy : Nat) : Option Str → List Str → List TravelEntry
  | _, [] => []
  | cur, l :: t =>
    let st := heuristicStep cy cur l
    st.2 ++ heuristicLoop cy st.1 t

/-- `parseJourneysHeuristically` from `src/services/geminiService.ts`;
`cy` is the ambient `new Date().getFullYear()`. -/
def parseJourneysHeuristically (cy : Nat) (text : Str) : List TravelEntry :=
  heuristicLoop cy none (prepLines text)

/-! ### Capture-shape lemmas for the matchers -/

theorem takeDigitsN_spec : ∀ {n : Nat} {l ds r : Str}, takeDigitsN n l = some (ds, r) →
    ds.length = n ∧ (∀ c ∈ ds, isDigitB c = true) ∧ l = ds ++ r := by
  intro n
  induction n with
  | zero =>
    intro l ds r h
    simp only [takeDigitsN, Option.some.injEq, Prod.mk.injEq] at h
    obtain ⟨rfl, rfl⟩ := h
    exact ⟨rfl, by simp, rfl⟩
  | succ n ih =>
    intro l ds r h
    match l with
    | [] =>
      have hnone : takeDigitsN (n + 1) ([] : Str) = none := rfl
      rw [hnone] at h
      cases h
    | c :: t =>
      rw [takeDigitsN] at h
      by_cases hc : isDigitB c = true
      · rw [if_pos hc] at h
        cases ht : takeDigitsN n t with
        | none => rw [ht] at h; cases h
        | some p =>
          rw [ht] at h
          have hpair : ((c :: p.1, p.2) : Str × Str) = (ds, r) := by
            have hmap : Option.map (fun q : Str × Str => ((c :: q.1, q.2) : Str × Str))
                (some p) = some (c :: p.1, p.2) := rfl
            rw [hmap] at h
            exact Option.some.inj h
          obtain ⟨hds, hr⟩ : ds = c :: p.1 ∧ r = p.2 := by
            have h1 := congrArg Prod.fst hpair
            have h2 := congrArg Prod.snd hpair
            simp at h1 h2
            exact ⟨h1.symm, h2.symm⟩
          obtain ⟨hlen, hdig, heq⟩ := ih ht
          subst hds; subst hr
          refine ⟨by simp [hlen], ?_, by simp [heq]⟩
          intro x hx
          rcases List.mem_cons.mp hx with rfl | hx'
          exacts [hc, hdig x hx']
      · rw [if_neg hc] at h; cases h

theorem takeDigitsN_of_digits {ds : Str} (r : Str)
    (hd : ∀ c ∈ ds, isDigitB c = true) :
    takeDigitsN ds.length (ds ++ r) = some (ds, r) := by
  induction ds with
  | nil => rfl
  | cons c t ih =>
    have hc : isDigitB c = true := hd c (by simp)
    simp only [List.length_cons, List.cons_append, takeDigitsN, hc, if_true,
      List.append_eq]
    rw [ih (fun x hx => hd x (by simp [hx]))]
    rfl

theorem digitVal_lt_of_digit {c : Char} (h : isDigitB c = true) : digitVal c < 10 := by
  simp only [isDigitB, Bool.and_eq_true, decide_eq_true_eq] at h
  have h1 : 48 ≤ c.toNat := h.1
  have h2 : c.toNat ≤ 57 := h.2
  simp only [digitVal]
  omega

theorem decValue_lt_pow (s : Str) (h : ∀ c ∈ s, isDigitB c = true) :
    decValue s < 10 ^ s.length := by
  induction s with
  | nil => simp [decValue]
  | cons c t ih =>
    have hc := digitVal_lt_of_digit (h c (by simp))
    have ht := ih (fun x hx => h x (by simp [hx]))
    have hfold : decValue (c :: t) = digitVal c * 10 ^ t.length + decValue t := by
      simp only [decValue, List.foldl_cons]
      have := decValue_append_digits t (10 * 0 + digitVal c)
      simpa using this
    rw [hfold, List.length_cons, pow_succ]
    nlinarith

theorem matchCaseInsAt_spec : ∀ {pat l c r : Str}, matchCaseInsAt pat l = some (c, r) →
    c.map asciiLower = pat ∧ l = c ++ r := by
  intro pat
  induction pat with
  | nil =>
    intro l c r h
    simp only [matchCaseInsAt, Option.some.injEq, Prod.mk.injEq] at h
    obtain ⟨rfl, rfl⟩ := h
    exact ⟨rfl, rfl⟩
  | cons p pt ih =>
    intro l c r h
    match l with
    | [] =>
      have hnone : matchCaseInsAt (p :: pt) ([] : Str) = none := rfl
      rw [hnone] at h
      cases h
    | x :: t =>
      rw [matchCaseInsAt] at h
      by_cases hx : asciiLower x = p
      · rw [if_pos hx] at h
        cases ht : matchCaseInsAt pt t with
        | none => rw [ht] at h; cases h
        | some q =>
          rw [ht] at h
          have hpair : ((x :: q.1, q.2) : Str × Str) = (c, r) := by
            have hmap : Option.map (fun w : Str × Str => ((x :: w.1, w.2) : Str × Str))
                (some q) = some (x :: q.1, q.2) := rfl
            rw [hmap] at h
            exact Option.some.inj h
          obtain ⟨hc, hr⟩ : c = x :: q.1 ∧ r = q.2 := by
            have h1 := congrArg Prod.fst hpair
            have h2 := congrArg Prod.snd hpair
            simp at h1 h2
            exact ⟨h1.symm, h2.symm⟩
          obtain ⟨hmap, heq⟩ := ih ht
          subst hc; subst hr
          exact ⟨by simp [hmap, hx], by simp [heq]⟩
      · rw [if_neg hx] at h; cases h

theorem matchAltsAt_spec {alts : List Str} {l c r : Str}
    (h : matchAltsAt alts l = some (c, r)) :
    ∃ p ∈ alts, matchCaseInsAt p l = some (c, r) := by
  unfold matchAltsAt at h
  induction alts with
  | nil => cases h
  | cons p pt ih =>
    rw [List.findSome?_cons] at h
    cases hp : matchCaseInsAt p l with
    | some q =>
      rw [hp] at h
      cases h
      exact ⟨p, by simp, hp⟩
    | none =>
      rw [hp] at h
      obtain ⟨p', hp', hm⟩ := ih h
      exact ⟨p', by simp [hp'], hm⟩

theorem scanStr_spec {β : Type} {f : Str → Option β} : ∀ {l : Str} {b : β},
    scanStr f l = some b → ∃ s : Str, f s = some b := by
  intro l
  induction l with
  | nil => intro b h; exact ⟨[], h⟩
  | cons c t ih =>
    intro b h
    rw [scanStr] at h
    cases hf : f (c :: t) with
    | some r => rw [hf] at h; cases h; exact ⟨c :: t, hf⟩
    | none => rw [hf] at h; exact ih h

/-! ### Dates produced by the heuristic parser match `^\d{4}-\d{2}-\d{2}$` -/

/-- The exact test `/^\d{4}-\d{2}-\d{2}$/.test s`, shared by the AI-output
validator. -/
def isoDatePatternAux (s : Str) : Option Unit := do
  let (_, r1) ← takeDigitsN 4 s
  let r2 ← expectChar '-' r1
  let (_, r3) ← takeDigitsN 2 r2
  let r4 ← expectChar '-' r3
  let (_, r5) ← takeDigitsN 2 r4
  if r5 = [] then pure () else none

def isoDatePattern (s : Str) : Bool := (isoDatePatternAux s).isSome

theorem expectChar_cons (c : Char) (t : Str) : expectChar c (c :: t) = some t := by
  simp [expectChar]

theorem isoDatePattern_parts {y A B : Str}
    (hy : y.length = 4) (hyd : ∀ c ∈ y, isDigitB c = true)
    (hA : A.length = 2) (hAd : ∀ c ∈ A, isDigitB c = true)
    (hB : B.length = 2) (hBd : ∀ c ∈ B, isDigitB c = true) :
    isoDatePattern (y ++ '-' :: (A ++ '-' :: B)) = true := by
  have h1 : takeDigitsN 4 (y ++ '-' :: (A ++ '-' :: B)) =
      some (y, '-' :: (A ++ '-' :: B)) := by
    rw [← hy]; exact takeDigitsN_of_digits _ hyd
  have h2 : takeDigitsN 2 (A ++ '-' :: B) = some (A, '-' :: B) := by
    rw [← hA]; exact takeDigitsN_of_digits _ hAd
  have h3 : takeDigitsN 2 (B ++ ([] : Str)) = some (B, []) := by
    rw [← hB]; exact takeDigitsN_of_digits _ hBd
  rw [List.append_nil] at h3
  unfold isoDatePattern isoDatePatternAux
  rw [h1]
  simp only [Option.bind_eq_bind, Option.some_bind, expectChar_cons, h2, h3]
  rfl

/-- The `monthMap` lookup of any alternation member's three-character slice
is a month number. -/
theorem monthAlts_lookup_lt :
    ∀ p ∈ monthAlts, (monthNum (p.take 3)).getD 0 < 100 := by decide

theorem isoDatePattern_mm {y d : Str} (mm : Nat) (hmm : mm < 100)
    (hy : y.length = 4) (hyd : ∀ c ∈ y, isDigitB c = true)
    (hd1 : 1 ≤ d.length) (hd2 : d.length ≤ 2) (hdd : ∀ c ∈ d, isDigitB c = true) :
    isoDatePattern (y ++ '-' :: (padStart2 (natToDec mm) ++ '-' :: padStart2 d)) = true := by
  refine isoDatePattern_parts hy hyd ?_ ?_ ?_ ?_
  · refine padStart2_length ?_ (natToDec_length_le (by simpa using hmm) (by omega))
    have := List.length_pos.mpr (natToDec_ne_nil mm)
    omega
  · exact padStart2_all_digits (natToDec_all_digits _)
  · exact padStart2_length hd1 hd2
  · exact padStart2_all_digits hdd

theorem isoDatePattern_toISO {y d : Str} (m : Sum Str Nat)
    (hy : y.length = 4) (hyd : ∀ c ∈ y, isDigitB c = true)
    (hd1 : 1 ≤ d.length) (hd2 : d.length ≤ 2) (hdd : ∀ c ∈ d, isDigitB c = true)
    (hm : (match m with
           | .inr n => n
           | .inl s => (monthNum ((s.take 3).map asciiLower)).getD 0) < 100) :
    isoDatePattern (toISO y m d) = true := by
  rcases m with s | n
  · exact isoDatePattern_mm _ hm hy hyd hd1 hd2 hdd
  · exact isoDatePattern_mm _ hm hy hyd hd1 hd2 hdd

theorem takeDigits12_spec {l : Str} {ds r : Str} (h : takeDigits12 l = some (ds, r)) :
    1 ≤ ds.length ∧ ds.length ≤ 2 ∧ ∀ c ∈ ds, isDigitB c = true := by
  unfold takeDigits12 at h
  by_cases hcond : (takeDigitRun l).1 = [] ∨ 2 < (takeDigitRun l).1.length
  · rw [if_pos hcond] at h; cases h
  · rw [if_neg hcond] at h
    push_neg at hcond
    have hds : ds = (takeDigitRun l).1 := by
      have heq := Option.some.inj h
      rw [heq]
    have hlen : ds ≠ [] := by rw [hds]; exact hcond.1
    refine ⟨?_, ?_, ?_⟩
    · have := List.length_pos.mpr hlen
      omega
    · rw [hds]; exact hcond.2
    · intro c hc
      rw [hds] at hc
      exact List.mem_takeWhile_imp hc

theorem tryIsoAt_spec {l y mo d : Str} (h : tryIsoAt l = some (y, mo, d)) :
    (y.length = 4 ∧ ∀ c ∈ y, isDigitB c = true) ∧
    (mo.length = 2 ∧ ∀ c ∈ mo, isDigitB c = true) ∧
    (d.length = 2 ∧ ∀ c ∈ d, isDigitB c = true) := by
  unfold tryIsoAt at h
  simp only [Option.bind_eq_bind, Option.bind_eq_some, Option.pure_def,
    Option.some.injEq, Prod.mk.injEq, Prod.exists] at h
  obtain ⟨y', r1, h1, r2, h2, mo', r3, h3, r4, h4, d', r5, h5, hy, hmo, hd⟩ := h
  subst hy; subst hmo; subst hd
  obtain ⟨hylen, hydig, -⟩ := takeDigitsN_spec h1
  obtain ⟨hmolen, hmodig, -⟩ := takeDigitsN_spec h3
  obtain ⟨hdlen, hddig, -⟩ := takeDigitsN_spec h5
  exact ⟨⟨hylen, hydig⟩, ⟨hmolen, hmodig⟩, ⟨hdlen, hddig⟩⟩

theorem tryDMYAt_spec {l : Str} {ds mt y : Str} (h : tryDMYAt l = some (ds, mt, y)) :
    (1 ≤ ds.length ∧ ds.length ≤ 2 ∧ ∀ c ∈ ds, isDigitB c = true) ∧
    (∃ p ∈ monthAlts, mt.map asciiLower = p) ∧
    (y.length = 4 ∧ ∀ c ∈ y, isDigitB c = true) := by
  unfold tryDMYAt at h
  simp only [Option.bind_eq_bind, Option.bind_eq_some, Option.pure_def,
    Option.some.injEq, Prod.mk.injEq, Prod.exists] at h
  obtain ⟨ds', r1, h1, r2, h2, mt', r3, h3, r5, h5, y', r6, h6, hds, hmt, hy⟩ := h
  subst hds; subst hmt; subst hy
  obtain ⟨p, hp, hpm⟩ := matchAltsAt_spec h3
  obtain ⟨hmap, -⟩ := matchCaseInsAt_spec hpm
  obtain ⟨hylen, hydig, -⟩ := takeDigitsN_spec h6
  exact ⟨takeDigits12_spec h1, ⟨p, hp, hmap⟩, hylen, hydig⟩

theorem tryWdAt_spec {l : Str} {ds mt : Str} {y? : Option Str}
    (h : tryWdAt l = some (ds, mt, y?)) :
    (1 ≤ ds.length ∧ ds.length ≤ 2 ∧ ∀ c ∈ ds, isDigitB c = true) ∧
    (∃ p ∈ monthAlts, mt.map asciiLower = p) ∧
    (∀ y, y? = some y → y.length = 4 ∧ ∀ c ∈ y, isDigitB c = true) := by
  unfold tryWdAt at h
  simp only [Option.bind_eq_bind, Option.bind_eq_some, Option.pure_def,
    Option.some.injEq, Prod.mk.injEq, Prod.exists] at h
  obtain ⟨w', r1, h1, r2, h2, ds', r3, h3, r4, h4, mt', r5, h5, hds, hmt, hy⟩ := h
  subst hds; subst hmt
  obtain ⟨p, hp, hpm⟩ := matchAltsAt_spec h5
  obtain ⟨hmap, -⟩ := matchCaseInsAt_spec hpm
  refine ⟨takeDigits12_spec h3, ⟨p, hp, hmap⟩, ?_⟩
  intro y hysome
  rw [← hy] at hysome
  simp only [Option.bind_eq_bind, Option.bind_eq_some, Option.pure_def,
    Option.some.injEq, Prod.exists] at hysome
  obtain ⟨r7, h7, y', r8, h8, hy'⟩ := hysome
  subst hy'
  obtain ⟨hylen, hydig, -⟩ := takeDigitsN_spec h8
  exact ⟨hylen, hydig⟩

/-- Every date the header detection produces matches `^\d{4}-\d{2}-\d{2}$`,
provided the ambient current year has four digits. -/
theorem matchDateHeader_shape {cy : Nat} {line ds : Str}
    (hcy1 : 1000 ≤ cy) (hcy2 : cy ≤ 9999)
    (h : matchDateHeader cy line = some ds) : isoDatePattern ds = true := by
  unfold matchDateHeader at h
  cases hiso : scanStr tryIsoAt line with
  | some ymd =>
    rw [hiso] at h
    obtain ⟨y, mo, d⟩ := ymd
    cases h
    obtain ⟨s, hs⟩ := scanStr_spec hiso
    obtain ⟨⟨hy, hyd⟩, ⟨hmo, hmod⟩, hd, hdd⟩ := tryIsoAt_spec hs
    refine isoDatePattern_toISO _ hy hyd (by omega) (by omega) hdd ?_
    have := decValue_lt_pow mo hmod
    rw [hmo] at this
    simpa using this
  | none =>
    rw [hiso] at h
    cases hdmy : scanStr tryDMYAt line with
    | some dmy =>
      rw [hdmy] at h
      obtain ⟨d, mt, y⟩ := dmy
      cases h
      obtain ⟨s, hs⟩ := scanStr_spec hdmy
      obtain ⟨⟨hd1, hd2, hdd⟩, ⟨p, hp, hmap⟩, hy, hyd⟩ := tryDMYAt_spec hs
      refine isoDatePattern_toISO _ hy hyd hd1 hd2 hdd ?_
      have hlift : (mt.take 3).map asciiLower = p.take 3 := by
        rw [List.map_take, hmap]
      simp only [hlift]
      exact monthAlts_lookup_lt p hp
    | none =>
      rw [hdmy] at h
      cases hwd : scanStr tryWdAt line with
      | some wdm =>
        rw [hwd] at h
        obtain ⟨d, mt, y?⟩ := wdm
        cases h
        obtain ⟨s, hs⟩ := scanStr_spec hwd
        obtain ⟨⟨hd1, hd2, hdd⟩, ⟨p, hp, hmap⟩, hyopt⟩ := tryWdAt_spec hs
        have hy : (y?.getD (natToDec cy)).length = 4 ∧
            ∀ c ∈ y?.getD (natToDec cy), isDigitB c = true := by
          cases hyy : y? with
          | some y => simpa using hyopt y hyy
          | none =>
            simp only [Option.getD_none]
            constructor
            · exact natToDec_length_eq (k := 3) (by norm_num; omega) (by norm_num; omega)
            · exact natToDec_all_digits cy
        refine isoDatePattern_toISO _ hy.1 hy.2 hd1 hd2 hdd ?_
        have hlift : (mt.take 3).map asciiLower = p.take 3 := by
          rw [List.map_take, hmap]
        simp only [hlift]
        exact monthAlts_lookup_lt p hp
      | none => rw [hwd] at h; cases h

/-- Entry analysis of one line's emission: only an active date and an amount
parse greater than zero on a non-excluded line emit, and the entry carries
exactly that date and amount. -/
theorem heuristicEmit_mem {line : Str} {cur' : Option Str} {e : TravelEntry}
    (h : e ∈ heuristicEmit line cur') :
    ∃ d q, cur' = some d ∧ e = ⟨d, q⟩ ∧ 0 < q ∧
      exclusionTest line = false ∧
      ∃ cap, findAmountCapture line = some cap ∧ jsParseFloat cap = some q := by
  unfold heuristicEmit at h
  by_cases hex : exclusionTest line = true
  · rw [if_pos hex] at h; cases h
  · rw [if_neg hex] at h
    cases hcap : findAmountCapture line with
    | none => rw [hcap] at h; cases cur' <;> cases h
    | some cap =>
      rw [hcap] at h
      cases hcur : cur' with
      | none => rw [hcur] at h; cases h
      | some d =>
        rw [hcur] at h
        dsimp only at h
        cases hq : jsParseFloat cap with
        | none => rw [hq] at h; cases h
        | some q =>
          rw [hq] at h
          dsimp only at h
          by_cases hpos : 0 < q
          · rw [if_pos hpos] at h
            rcases List.mem_cons.mp h with rfl | hcon
            · exact ⟨d, q, rfl, rfl, hpos, by simpa using hex, cap, rfl, hq⟩
            · cases hcon
          · rw [if_neg hpos] at h; cases h

theorem heuristicStep_fst (cy : Nat) (cur : Option Str) (raw : Str) :
    (heuristicStep cy cur raw).1 =
      match matchDateHeader cy (normalizeWs raw) with
      | some d => some d
      | none => cur := rfl

theorem heuristicStep_snd (cy : Nat) (cur : Option Str) (raw : Str) :
    (heuristicStep cy cur raw).2 =
      heuristicEmit (normalizeWs raw) (heuristicStep cy cur raw).1 := rfl

theorem heuristicLoop_wf (cy : Nat) (hcy1 : 1000 ≤ cy) (hcy2 : cy ≤ 9999) :
    ∀ (ls : List Str) (cur : Option Str),
      (∀ s, cur = some s → isoDatePattern s = true) →
      ∀ e ∈ heuristicLoop cy cur ls, isoDatePattern e.date = true ∧ 0 < e.amount := by
  intro ls
  induction ls with
  | nil => intro cur _ e he; cases he
  | cons raw rest ih =>
    intro cur hcur e he
    rw [heuristicLoop] at he
    have hcur' : ∀ s, (heuristicStep cy cur raw).1 = some s → isoDatePattern s = true := by
      intro s hs
      rw [heuristicStep_fst] at hs
      cases hm : matchDateHeader cy (normalizeWs raw) with
      | some d =>
        rw [hm] at hs
        cases hs
        exact matchDateHeader_shape hcy1 hcy2 hm
      | none =>
        rw [hm] at hs
        exact hcur s hs
    rcases List.mem_append.mp he with hin | hin
    · rw [heuristicStep_snd] at hin
      obtain ⟨d, q, hd, rfl, hq, -, -⟩ := heuristicEmit_mem hin
      exact ⟨hcur' d hd, hq⟩
    · exact ih _ hcur' e hin

/-- Dates emitted by `parseJourneysHeuristically` match `^\d{4}-\d{2}-\d{2}$`
and amounts are strictly positive (for a four-digit ambient year). -/
theorem parseJourneysHeuristically_wf {cy : Nat} (hcy1 : 1000 ≤ cy) (hcy2 : cy ≤ 9999)
    (text : Str) :
    ∀ e ∈ parseJourneysHeuristically cy text,
      isoDatePattern e.date = true ∧ 0 < e.amount := by
  unfold parseJourneysHeuristically
  exact heuristicLoop_wf cy hcy1 hcy2 _ none (by intro s hs; cases hs)

/-! ### Claims C3, C4 and C10 -/

/-- C3 counterexample: the claim says a date-header line never itself emits
an entry, but the parser has no skip after a header match — the line
`"2025-10-14 £2.80"` both sets the date and emits `{2025-10-14, 2.80}`. -/
theorem c3_counterexample :
    parseJourneysHeuristically 2026 ((r"2025-10-14 £2.80").toList) =
      [⟨dateLit1, (2.8 : ℚ)⟩] ∧
    matchDateHeader 2026 (normalizeWs ((r"2025-10-14 £2.80").toList)) = some dateLit1 ∧
    parseJourneysHeuristically 2026 ((r"2025-10-14 £2.80").toList) ≠ [] := by
  refine ⟨by decide, by decide, by decide⟩

/-- C3 (amended): on a date-header match the parser sets `currentDate` to the
normalized ISO value, but it does not move on: the same line still passes
through the exclusion and amount checks, emitting an entry with the freshly
set date exactly when it is not excluded and carries a positive amount. -/
theorem c3_header_updates_but_does_not_skip (cy : Nat) (cur : Option Str)
    (raw d : Str) (h : matchDateHeader cy (normalizeWs raw) = some d) :
    (heuristicStep cy cur raw).1 = some d ∧
    (heuristicStep cy cur raw).2 =
      (if exclusionTest (normalizeWs raw) = true then []
       else
         match (findAmountCapture (normalizeWs raw)).bind jsParseFloat with
         | some q => if 0 < q then [⟨d, q⟩] else []
         | none => []) := by
  have hfst : (heuristicStep cy cur raw).1 = some d := by
    rw [heuristicStep_fst, h]
  refine ⟨hfst, ?_⟩
  rw [heuristicStep_snd, hfst]
  unfold heuristicEmit
  by_cases hex : exclusionTest (normalizeWs raw) = true
  · rw [if_pos hex, if_pos hex]
  · rw [if_neg hex, if_neg hex]
    cases hcap : findAmountCapture (normalizeWs raw) with
    | none => rfl
    | some cap => dsimp only [Option.bind]

/-- Witness for the amended C3 on the counterexample line: the date is set
and the entry is still emitted. -/
theorem c3_header_witness :
    (heuristicStep 2026 none ((r"2025-10-14 £2.80").toList)).1 = some dateLit1 ∧
    (heuristicStep 2026 none ((r"2025-10-14 £2.80").toList)).2 =
      [⟨dateLit1, (2.8 : ℚ)⟩] := by
  obtain ⟨h1, h2⟩ :=
    c3_header_updates_but_does_not_skip 2026 none ((r"2025-10-14 £2.80").toList)
      dateLit1 (by decide)
  refine ⟨h1, ?_⟩
  rw [h2]
  decide

/-- C4: a line matching an exclusion pattern yields no TravelEntry, even when
it contains a valid amount and a date context is active. -/
theorem c4_exclusion_wins (cy : Nat) (cur : Option Str) (raw : Str)
    (hex : exclusionTest (normalizeWs raw) = true) :
    (heuristicStep cy cur raw).2 = [] := by
  rw [heuristicStep_snd]
  unfold heuristicEmit
  rw [if_pos hex]

/-- Witness for C4: `"Daily cap £8.00"` under an active date matches the
amount pattern yet yields no entry. -/
theorem c4_exclusion_wins_witness :
    exclusionTest (normalizeWs ((r"Daily cap £8.00").toList)) = true ∧
    findAmountCapture (normalizeWs ((r"Daily cap £8.00").toList)) =
      some ((r"8.00").toList) ∧
    (heuristicStep 2026 (some dateLit1) ((r"Daily cap £8.00").toList)).2 = [] :=
  ⟨by decide, by decide,
    c4_exclusion_wins 2026 (some dateLit1) ((r"Daily cap £8.00").toList) (by decide)⟩

/-- C10: a line matching both a date header and an exclusion pattern still
updates `currentDate` before being discarded, and a subsequent amount-only
line inherits the date taken from the excluded line. -/
theorem c10_excluded_header_sets_date (cy : Nat) (cur : Option Str)
    (raw₁ raw₂ : Str) (ls : List Str) (d cap : Str) (q : ℚ)
    (hd : matchDateHeader cy (normalizeWs raw₁) = some d)
    (hex₁ : exclusionTest (normalizeWs raw₁) = true)
    (hd₂ : matchDateHeader cy (normalizeWs raw₂) = none)
    (hex₂ : exclusionTest (normalizeWs raw₂) = false)
    (hcap : findAmountCapture (normalizeWs raw₂) = some cap)
    (hq : jsParseFloat cap = some q) (hqpos : 0 < q) :
    heuristicLoop cy cur (raw₁ :: raw₂ :: ls) =
      ⟨d, q⟩ :: heuristicLoop cy (some d) ls := by
  rw [heuristicLoop]
  have h1fst : (heuristicStep cy cur raw₁).1 = some d := by
    rw [heuristicStep_fst, hd]
  have h1snd : (heuristicStep cy cur raw₁).2 = [] := by
    rw [heuristicStep_snd]
    unfold heuristicEmit
    rw [if_pos hex₁]
  rw [h1snd, h1fst, List.nil_append, heuristicLoop]
  have h2fst : (heuristicStep cy (some d) raw₂).1 = some d := by
    rw [heuristicStep_fst, hd₂]
  have h2snd : (heuristicStep cy (some d) raw₂).2 = [⟨d, q⟩] := by
    rw [heuristicStep_snd, h2fst]
    unfold heuristicEmit
    rw [if_neg (by simp [hex₂]), hcap]
    dsimp only
    rw [hq]
    dsimp only
    rw [if_pos hqpos]
  rw [h2snd, h2fst]
  rfl

/-- Witness for C10: `"14 Oct 2025 Total"` matches the `D Month YYYY` header
and the `total` exclusion; the following `"£2.80"` line inherits its date. -/
theorem c10_excluded_header_witness :
    heuristicLoop 2026 none
      [(r"14 Oct 2025 Total").toList, (r"£2.80").toList] =
      [⟨dateLit1, (2.8 : ℚ)⟩] := by
  rw [c10_excluded_header_sets_date 2026 none _ _ [] dateLit1 ((r"2.80").toList)
    (2.8 : ℚ) (by decide) (by decide) (by decide) (by decide) (by decide) (by decide)
    (by decide)]
  rfl

/-! ### The AI-output validator and the single-document finalisation -/

/-- One element of the parsed `expenses` array.  A field is `none` when it is
missing, has the wrong JS type, or (for the amount) is `NaN` — exactly what
the validator's `typeof`/`isNaN` guards reject. -/
structure RawItem where
  dateField : Option Str
  amountField : Option ℚ
deriving DecidableEq

/-- The validation loop shared by `processPdfChunk` and the whole-document
path of `extractTravelDataFromFile`: keep well-typed items whose date string
passes `/^\d{4}-\d{2}-\d{2}$/`. -/
def aiValidateEntries (items : List RawItem) : List TravelEntry :=
  items.flatMap (fun it =>
    match it.dateField, it.amountField with
    | some s, some q => if isoDatePattern s then [⟨s, q⟩] else []
    | _, _ => [])

theorem aiValidateEntries_wf (items : List RawItem) :
    ∀ e ∈ aiValidateEntries items, isoDatePattern e.date = true := by
  intro e he
  unfold aiValidateEntries at he
  rcases List.mem_flatMap.mp he with ⟨it, -, hin⟩
  cases hd : it.dateField with
  | none => rw [hd] at hin; cases hin
  | some s =>
    cases ha : it.amountField with
    | none => rw [hd, ha] at hin; cases hin
    | some q =>
      rw [hd, ha] at hin
      dsimp only at hin
      by_cases hp : isoDatePattern s = true
      · rw [if_pos hp] at hin
        rcases List.mem_cons.mp hin with rfl | hcon
        · exact hp
        · cases hcon
      · rw [if_neg hp] at hin
        cases hin

/-- The reportable-error message of the all-dropped single-document case. -/
def noneInFormatMsg : Str :=
  (r"The AI model found some data, but none of it was in the correct format (e.g., YYYY-MM-DD for dates).").toList

/-- The `finalEntries` computation of the whole-document `validate-entries`
block: start from the validated entries and merge the heuristic pass over the
raw fallback text when that text is non-empty (JS truthiness) and the
heuristic pass found anything. -/
def finalEntriesSingleDoc (cy : Nat) (expenses : List RawItem) (rawText : Str) :
    List TravelEntry :=
  if rawText ≠ [] then
    if parseJourneysHeuristically cy rawText ≠ [] then
      mergeEntriesByMaxCount (aiValidateEntries expenses)
        (parseJourneysHeuristically cy rawText)
    else aiValidateEntries expenses
  else aiValidateEntries expenses

/-- `if (finalEntries.length === 0 && parsedJson.expenses.length > 0) throw …`
followed by returning `finalEntries`. -/
def finalizeCheck (expenses : List RawItem) (finalEntries : List TravelEntry) :
    Except Str (List TravelEntry) :=
  if finalEntries = [] ∧ expenses ≠ [] then Except.error noneInFormatMsg
  else Except.ok finalEntries

/-- The tail of the whole-document path of `extractTravelDataFromFile`. -/
def finalizeSingleDoc (cy : Nat) (expenses : List RawItem) (rawText : Str) :
    Except Str (List TravelEntry) :=
  finalizeCheck expenses (finalEntriesSingleDoc cy expenses rawText)

/-- Dates produced by `toISO` consist of digits and dashes only. -/
theorem toISO_no_pipe {y d : Str} (m : Sum Str Nat)
    (hyd : ∀ c ∈ y, isDigitB c = true) (hdd : ∀ c ∈ d, isDigitB c = true) :
    '|' ∉ toISO y m d := by
  unfold toISO
  intro hmem
  rcases List.mem_append.mp hmem with h' | h'
  · exact (isDigitB_char_facts (hyd _ h')).2.2.2.2 rfl
  · rcases List.mem_cons.mp h' with h'' | h''
    · exact absurd h''.symm (by decide)
    · rcases List.mem_append.mp h'' with h3 | h3
      · exact (isDigitB_char_facts
          (padStart2_all_digits (natToDec_all_digits _) _ h3)).2.2.2.2 rfl
      · rcases List.mem_cons.mp h3 with h4 | h4
        · exact absurd h4.symm (by decide)
        · exact (isDigitB_char_facts
            (padStart2_all_digits hdd _ h4)).2.2.2.2 rfl

theorem matchDateHeader_no_pipe {cy : Nat} {line ds : Str}
    (h : matchDateHeader cy line = some ds) : '|' ∉ ds := by
  unfold matchDateHeader at h
  cases hiso : scanStr tryIsoAt line with
  | some ymd =>
    rw [hiso] at h
    obtain ⟨y, mo, d⟩ := ymd
    cases h
    obtain ⟨s, hs⟩ := scanStr_spec hiso
    obtain ⟨⟨-, hyd⟩, -, -, hdd⟩ := tryIsoAt_spec hs
    exact toISO_no_pipe _ hyd hdd
  | none =>
    rw [hiso] at h
    cases hdmy : scanStr tryDMYAt line with
    | some dmy =>
      rw [hdmy] at h
      obtain ⟨d, mt, y⟩ := dmy
      cases h
      obtain ⟨s, hs⟩ := scanStr_spec hdmy
      obtain ⟨⟨-, -, hdd⟩, -, -, hyd⟩ := tryDMYAt_spec hs
      exact toISO_no_pipe _ hyd hdd
    | none =>
      rw [hdmy] at h
      cases hwd : scanStr tryWdAt line with
      | some wdm =>
        rw [hwd] at h
        obtain ⟨d, mt, y?⟩ := wdm
        cases h
        obtain ⟨s, hs⟩ := scanStr_spec hwd
        obtain ⟨⟨-, -, hdd⟩, -, hyopt⟩ := tryWdAt_spec hs
        refine toISO_no_pipe _ ?_ hdd
        cases hyy : y? with
        | some y => exact (hyopt y hyy).2
        | none => simpa using natToDec_all_digits cy
      | none => rw [hwd] at h; cases h

theorem heuristicLoop_no_pipe (cy : Nat) :
    ∀ (ls : List Str) (cur : Option Str),
      (∀ s, cur = some s → '|' ∉ s) →
      ∀ e ∈ heuristicLoop cy cur ls, '|' ∉ e.date := by
  intro ls
  induction ls with
  | nil => intro cur _ e he; cases he
  | cons raw rest ih =>
    intro cur hcur e he
    rw [heuristicLoop] at he
    have hcur' : ∀ s, (heuristicStep cy cur raw).1 = some s → '|' ∉ s := by
      intro s hs
      rw [heuristicStep_fst] at hs
      cases hm : matchDateHeader cy (normalizeWs raw) with
      | some d =>
        rw [hm] at hs
        cases hs
        exact matchDateHeader_no_pipe hm
      | none =>
        rw [hm] at hs
        exact hcur s hs
    rcases List.mem_append.mp he with hin | hin
    · rw [heuristicStep_snd] at hin
      obtain ⟨d, q, hd, rfl, -, -, -⟩ := heuristicEmit_mem hin
      exact hcur' d hd
    · exact ih _ hcur' e hin

theorem parseJourneysHeuristically_no_pipe (cy : Nat) (text : Str) :
    ∀ e ∈ parseJourneysHeuristically cy text, '|' ∉ e.date := by
  unfold parseJourneysHeuristically
  exact heuristicLoop_no_pipe cy _ none (by intro s hs; cases hs)

/-- Merging a non-empty well-formed pass into the empty list is non-empty. -/
theorem merge_nil_ne_nil {h : List TravelEntry} (hh : h ≠ [])
    (hwf : ∀ e ∈ h, '|' ∉ e.date) : mergeEntriesByMaxCount [] h ≠ [] := by
  intro hcon
  obtain ⟨e, t, rfl⟩ := List.exists_cons_of_ne_nil hh
  have hc := countKey_merge [] (e :: t) (by intro x hx; cases hx) hwf (entryKey e)
  rw [hcon] at hc
  have hpos : 1 ≤ countKey (e :: t) (entryKey e) := by
    unfold countKey
    rw [List.countP_cons]
    simp
  have hz : countKey ([] : List TravelEntry) (entryKey e) = 0 := rfl
  rw [hz] at hc
  simp only [countKey] at hc hpos
  omega

/-! ### Claim C7 -/

/-- C7 counterexample: a single-document call whose non-empty expenses array
fails validation entirely does not raise when the heuristic fallback over the
raw text recovers entries — it returns them instead. -/
theorem c7_counterexample :
    aiValidateEntries [⟨some ((r"14-10-2025").toList), some (2.8 : ℚ)⟩] = [] ∧
    ([⟨some ((r"14-10-2025").toList), some (2.8 : ℚ)⟩] : List RawItem) ≠ [] ∧
    finalizeSingleDoc 2026 [⟨some ((r"14-10-2025").toList), some (2.8 : ℚ)⟩]
      ((r"2025-10-14").toList ++ '\n' :: (r"£2.80").toList) =
      Except.ok [⟨dateLit1, (2.8 : ℚ)⟩] := by
  refine ⟨by decide, by decide, ?_⟩
  rfl

/-- C7 (amended): for a single-document call with a non-empty expenses array
all of whose elements fail validation, the reportable error is raised exactly
when the heuristic fallback also recovers nothing (empty raw text, or an
empty heuristic pass); when the heuristic pass is non-empty the call returns
a non-empty merged result instead of raising. -/
theorem c7_all_invalid (cy : Nat) (expenses : List RawItem) (rawText : Str)
    (hne : expenses ≠ []) (hval : aiValidateEntries expenses = []) :
    ((rawText = [] ∨ parseJourneysHeuristically cy rawText = []) →
       finalizeSingleDoc cy expenses rawText = Except.error noneInFormatMsg) ∧
    (parseJourneysHeuristically cy rawText ≠ [] → rawText ≠ [] →
       ∃ l, finalizeSingleDoc cy expenses rawText = Except.ok l ∧ l ≠ []) := by
  constructor
  · intro hcase
    unfold finalizeSingleDoc finalEntriesSingleDoc finalizeCheck
    rcases hcase with hr | hh
    · rw [if_neg (show ¬(rawText ≠ []) from by simp [hr]), hval,
        if_pos (show ([] : List TravelEntry) = [] ∧ expenses ≠ [] from ⟨rfl, hne⟩)]
    · by_cases hr : rawText ≠ []
      · rw [if_pos hr,
          if_neg (show ¬(parseJourneysHeuristically cy rawText ≠ []) from by simp [hh]),
          hval,
          if_pos (show ([] : List TravelEntry) = [] ∧ expenses ≠ [] from ⟨rfl, hne⟩)]
      · rw [if_neg hr, hval,
          if_pos (show ([] : List TravelEntry) = [] ∧ expenses ≠ [] from ⟨rfl, hne⟩)]
  · intro hh hr
    unfold finalizeSingleDoc finalEntriesSingleDoc finalizeCheck
    rw [if_pos hr, if_pos hh, hval]
    have hnn := merge_nil_ne_nil hh (parseJourneysHeuristically_no_pipe cy rawText)
    rw [if_neg (show ¬(mergeEntriesByMaxCount []
        (parseJourneysHeuristically cy rawText) = [] ∧ expenses ≠ []) from
      fun hcon => hnn hcon.1)]
    exact ⟨_, rfl, hnn⟩

/-- Witness for the amended C7: with no raw fallback text the all-invalid
call raises the reportable error. -/
theorem c7_all_invalid_witness :
    finalizeSingleDoc 2026 [⟨some ((r"14-10-2025").toList), some (2.8 : ℚ)⟩] [] =
      Except.error noneInFormatMsg :=
  (c7_all_invalid 2026 [⟨some ((r"14-10-2025").toList), some (2.8 : ℚ)⟩] []
    (by decide) (by decide)).1 (Or.inl rfl)

/-! ### The statement CSV parser (`parseCsvToTravelEntries`) -/

/-- Number of `"` characters in a string. -/
def countQuotes (l : Str) : Nat := l.countP (fun c => c = '"')

/-- `row.split(/,(?=(?:[^"]*"[^"]*")*[^"]*$)|;|\t/)`: `;` and tab always
split; `,` splits when the remainder contains an even number of quotes (the
lookahead's pairs-of-quotes condition). -/
def jsSplitCols : Str → List Str
  | [] => [[]]
  | c :: t =>
    if c = ';' ∨ c = '\t' then [] :: jsSplitCols t
    else if c = ',' ∧ countQuotes t % 2 = 0 then [] :: jsSplitCols t
    else
      match jsSplitCols t with
      | [] => [[c]]
      | h :: r => (c :: h) :: r

/-- `c.replace(/^"|"$/g, "")`: drop one leading and one trailing quote. -/
def stripQuotes (l : Str) : Str :=
  let l1 := match l with
    | '"' :: t => t
    | _ => l
  match l1.getLast? with
  | some '"' => l1.dropLast
  | _ => l1

/-- One character from a set (the slash-or-dash and space-or-dash classes). -/
def expectCharOf (cs : List Char) : Str → Option Str
  | [] => none
  | x :: t => if x ∈ cs then some t else none

/-- `^(\d{4})-(\d{2})-(\d{2})$`, rebuilding `` `${m[1]}-${m[2]}-${m[3]}` ``. -/
def tryCsvIso (s : Str) : Option Str := do
  let (y, r1) ← takeDigitsN 4 s
  let r2 ← expectChar '-' r1
  let (mo, r3) ← takeDigitsN 2 r2
  let r4 ← expectChar '-' r3
  let (d, r5) ← takeDigitsN 2 r4
  if r5 = [] then pure (y ++ '-' :: (mo ++ '-' :: d)) else none

/-- The `d/m/y` form (day, slash-or-dash, month, slash-or-dash, a 2-to-4
digit year, anchored at both ends) with two-digit years prefixed by `20`,
month and day reparsed, zero-padded and swapped into `y-mm-dd`. -/
def tryCsvDMY (s : Str) : Option Str := do
  let (d1, r1) ← takeDigits12 s
  let r2 ← expectCharOf ['/', '-'] r1
  let (d2, r3) ← takeDigits12 r2
  let r4 ← expectCharOf ['/', '-'] r3
  let yr := takeDigitRun r4
  if yr.2 = [] ∧ 2 ≤ yr.1.length ∧ yr.1.length ≤ 4 then
    pure ((if yr.1.length = 2 then '2' :: '0' :: yr.1 else yr.1) ++
      '-' :: (padStart2 (natToDec (decValue d2)) ++
        '-' :: padStart2 (natToDec (decValue d1))))
  else none

/-- `^(\d{1,2})[ -](Month)\w*[ -](\d{4})$`, month resolved through the same
`monthMap` table. -/
def tryCsvMonY (s : Str) : Option Str := do
  let (d1, r1) ← takeDigits12 s
  let r2 ← expectCharOf [' ', '-'] r1
  let (mt, r3) ← matchAltsAt monthAlts r2
  let r5 ← expectCharOf [' ', '-'] (takeWordRun r3).2
  let (y, r6) ← takeDigitsN 4 r5
  if r6 = [] then
    pure (y ++ '-' :: (padStart2 (natToDec
        ((monthNum ((mt.take 3).map asciiLower)).getD 0)) ++
      '-' :: padStart2 (natToDec (decValue d1))))
  else none

/-- `toISODate` of the CSV parser: trim, then the three anchored forms in
order. -/
def toISODate (s0 : Str) : Option Str :=
  let s := trimJs s0
  match tryCsvIso s with
  | some r => some r
  | none =>
    match tryCsvDMY s with
    | some r => some r
    | none => tryCsvMonY s

/-- The trailing-amount pattern (an optional minus, optional `£`, digits
with an optional two-decimal fraction, then `\s*$`) at one position; returns
the capture.  The optional fraction group is tried first; if it cannot
complete (or the tail is not whitespace), the group matches empty and
`\s*$` must hold right after the integer digits. -/
def stripLeadDash : Str → Str
  | '-' :: t => t
  | l => l

def stripPound : Str → Str
  | '£' :: t => t
  | l => l

/-- `-?\s*£?\s*` of the trailing-amount pattern. -/
def amtCore (l : Str) : Str :=
  ((stripPound ((stripLeadDash l).dropWhile isJsWs)).dropWhile isJsWs)

/-- After the integer digit run `ds`, the optional `(?:\.\d\x7b2\x7d)?`
followed by `\s*$`: if a two-digit fraction parses and only whitespace
remains, the capture extends over it; otherwise the optional group matches
empty and the rest must be whitespace. -/
def trailTail (ds : Str) : Str → Option Str
  | [] => some ds
  | c :: r5 =>
    if c = '.' then
      match takeDigitsN 2 r5 with
      | some (fs, r6) =>
        if r6.dropWhile isJsWs = [] then some (ds ++ '.' :: fs)
        else if (c :: r5 : Str).dropWhile isJsWs = [] then some ds else none
      | none => if (c :: r5 : Str).dropWhile isJsWs = [] then some ds else none
    else if (c :: r5 : Str).dropWhile isJsWs = [] then some ds else none

def tryTrailAmtAt (l : Str) : Option Str :=
  if (takeDigitRun (amtCore l)).1 = [] then none
  else trailTail (takeDigitRun (amtCore l)).1 (takeDigitRun (amtCore l)).2

/-- Leftmost match of the trailing-amount pattern in one column. -/
def matchTrailAmount (col : Str) : Option Str := scanStr tryTrailAmtAt col

/-- The amount loop `for (let j = cols.length - 1; j >= 0; j--)`: at the
first column (scanning right to left, index 0 included) whose text matches
the trailing-amount pattern, parse the capture and stop. -/
def findAmountFrom (cols : List Str) : Nat → Option ℚ
  | 0 =>
    match matchTrailAmount (cols.getD 0 []) with
    | some cap => jsParseFloat cap
    | none => none
  | j + 1 =>
    match matchTrailAmount (cols.getD (j + 1) []) with
    | some cap => jsParseFloat cap
    | none => findAmountFrom cols j

/-- One CSV data row: split into columns, strip quotes and trim, read the
date from column 0, search the amount from the rightmost column down. -/
def csvRow (row : Str) : List TravelEntry :=
  let cols := (jsSplitCols row).map (fun c => trimJs (stripQuotes c))
  if cols.length < 2 then []
  else
    match toISODate (cols.getD 0 []), findAmountFrom cols (cols.length - 1) with
    | some date, some amount => [⟨date, amount⟩]
    | _, _ => []

/-- Exact literal substring test (the header keywords run against the
already-lowercased header line). -/
def matchLitAt : Str → Str → Option Unit
  | [], _ => some ()
  | _ :: _, [] => none
  | p :: pt, c :: t => if c = p then matchLitAt pt t else none

def containsSub (l pat : Str) : Bool :=
  (scanStr (fun s => matchLitAt pat s) l).isSome

/-- The header-row detection of `parseCsvToTravelEntries`. -/
def csvHasHeader (headerLower : Str) : Bool :=
  (containsSub headerLower ((r"date").toList) ||
   containsSub headerLower ((r"journey").toList) ||
   containsSub headerLower ((r"day").toList)) &&
  (containsSub headerLower ((r"amount").toList) ||
   containsSub headerLower ((r"total").toList) ||
   containsSub headerLower ((r"charge").toList) ||
   containsSub headerLower ((r"cost").toList))

/-- `parseCsvToTravelEntries` from `src/services/geminiService.ts`. -/
def parseCsvToTravelEntries (text : Str) : List TravelEntry :=
  let lines := ((splitJsLines text).map trimJs).filter (fun l => !l.isEmpty)
  if lines = [] then []
  else
    let startIdx := if csvHasHeader ((lines.headD []).map asciiLower) then 1 else 0
    (lines.drop startIdx).flatMap csvRow

/-! ### Claim C6 -/

/-- Spec-side description of the amended amount search: scan all columns
from right to left — the date column included, last — and parse the first
trailing-amount match found.  (Stated from the amended claim, for comparison
with the source's index loop `findAmountFrom`.) -/
def findAmountSpec (cols : List Str) : Option ℚ :=
  (cols.reverse.findSome? matchTrailAmount).bind jsParseFloat

theorem matchTrailAmount_nil : matchTrailAmount ([] : Str) = none := rfl

theorem findAmountFrom_eq_reverse (cols : List Str) :
    ∀ j, findAmountFrom cols j =
      ((cols.take (j + 1)).reverse.findSome? matchTrailAmount).bind jsParseFloat := by
  intro j
  induction j with
  | zero =>
    cases cols with
    | nil => simp [findAmountFrom, matchTrailAmount_nil]
    | cons c t =>
      rw [findAmountFrom]
      cases hm : matchTrailAmount ((c :: t).getD 0 []) with
      | some cap =>
        simp only [List.getD_cons_zero] at hm
        simp [List.take_succ_cons, List.findSome?, hm]
      | none =>
        simp only [List.getD_cons_zero] at hm
        simp [List.take_succ_cons, List.findSome?, hm]
  | succ j ih =>
    by_cases hj : j + 1 < cols.length
    · have htake : cols.take (j + 2) = cols.take (j + 1) ++ [cols.getD (j + 1) []] := by
        rw [List.take_succ]
        congr 1
        rw [List.getElem?_eq_getElem hj]
        simp [List.getD_eq_getElem?_getD, List.getElem?_eq_getElem hj]
      rw [findAmountFrom, htake]
      cases hm : matchTrailAmount (cols.getD (j + 1) []) with
      | some cap =>
        rw [List.getD_eq_getElem?_getD] at hm
        simp [List.reverse_append, List.findSome?, hm]
      | none =>
        rw [List.getD_eq_getElem?_getD] at hm
        simp [List.reverse_append, List.findSome?, hm, ih]
    · have hge : cols.length ≤ j + 1 := by omega
      have hgd : cols.getD (j + 1) [] = [] := by
        rw [List.getD_eq_getElem?_getD, List.getElem?_eq_none hge]
        rfl
      rw [findAmountFrom, hgd, matchTrailAmount_nil]
      have ht2 : cols.take (j + 2) = cols.take (j + 1) := by
        rw [List.take_of_length_le (by omega), List.take_of_length_le hge]
      dsimp only
      rw [ht2]
      exact ih

/-- Spec-side row reading for the amended C6. -/
def csvRowSpec (row : Str) : List TravelEntry :=
  let cols := (jsSplitCols row).map (fun c => trimJs (stripQuotes c))
  if cols.length < 2 then []
  else
    match toISODate (cols.getD 0 []), findAmountSpec cols with
    | some date, some amount => [⟨date, amount⟩]
    | _, _ => []

/-- Spec-side parser for the amended C6. -/
def parseCsvSpec (text : Str) : List TravelEntry :=
  let lines := ((splitJsLines text).map trimJs).filter (fun l => !l.isEmpty)
  if lines = [] then []
  else
    let startIdx := if csvHasHeader ((lines.headD []).map asciiLower) then 1 else 0
    (lines.drop startIdx).flatMap csvRowSpec

/-- C6 counterexample: the claim says the amount is searched only in the
columns after the date column, but the loop runs down to index 0: in the row
`"2025-10-14,abc"` no later column matches, yet the parser takes the amount
`14` from the trailing digits of the date column itself. -/
theorem c6_counterexample :
    parseCsvToTravelEntries ((r"2025-10-14,abc").toList) =
      [⟨dateLit1, (14 : ℚ)⟩] ∧
    matchTrailAmount ((r"abc").toList) = none := by
  refine ⟨by decide, by decide⟩

theorem csvRow_eq_spec (row : Str) : csvRow row = csvRowSpec row := by
  simp only [csvRow, csvRowSpec, findAmountSpec]
  by_cases hlen : ((jsSplitCols row).map (fun c => trimJs (stripQuotes c))).length < 2
  · rw [if_pos hlen, if_pos hlen]
  · rw [if_neg hlen, if_neg hlen]
    rw [findAmountFrom_eq_reverse]
    have hl : ((jsSplitCols row).map (fun c => trimJs (stripQuotes c))).length - 1 + 1 =
        ((jsSplitCols row).map (fun c => trimJs (stripQuotes c))).length := by
      omega
    rw [hl, List.take_length]

/-- C6 (amended): for every CSV text, after the first column of a data row is
interpreted as the date, the amount is searched in all columns — the date
column included, reached last — scanning right to left and accepting the
first trailing-amount match; rows that do not yield both a valid date and a
valid amount produce no entry.  Formally, the parser equals the spec-side
parser whose rows are read by the right-to-left scan over all columns. -/
theorem c6_amount_scanned_from_right_includes_date_column (text : Str) :
    parseCsvToTravelEntries text = parseCsvSpec text := by
  simp only [parseCsvToTravelEntries, parseCsvSpec]
  rw [funext csvRow_eq_spec]

/-! ### Shapes of CSV-produced entries -/

/-- The relaxed date shape actually guaranteed by the CSV parser: a 3-or-4
digit year, then `-\d{2}-\d{2}`, nothing after. -/
def looseDatePattern (s : Str) : Bool :=
  if 3 ≤ (takeDigitRun s).1.length ∧ (takeDigitRun s).1.length ≤ 4 then
    match expectChar '-' (takeDigitRun s).2 with
    | none => false
    | some r2 =>
      match takeDigitsN 2 r2 with
      | none => false
      | some (_, r3) =>
        match expectChar '-' r3 with
        | none => false
        | some r4 =>
          match takeDigitsN 2 r4 with
          | none => false
          | some (_, r5) => r5.isEmpty
  else false

theorem looseDatePattern_parts {y A B : Str}
    (hy3 : 3 ≤ y.length) (hy4 : y.length ≤ 4) (hyd : ∀ c ∈ y, isDigitB c = true)
    (hA : A.length = 2) (hAd : ∀ c ∈ A, isDigitB c = true)
    (hB : B.length = 2) (hBd : ∀ c ∈ B, isDigitB c = true) :
    looseDatePattern (y ++ '-' :: (A ++ '-' :: B)) = true := by
  have hdash : isDigitB '-' = false := by decide
  have hsplit := takeWhile_append_stop (A := y) (c := '-') (r := A ++ '-' :: B) hyd hdash
  have hrun : takeDigitRun (y ++ '-' :: (A ++ '-' :: B)) = (y, '-' :: (A ++ '-' :: B)) := by
    unfold takeDigitRun
    rw [hsplit.1, hsplit.2]
  have h2 : takeDigitsN 2 (A ++ '-' :: B) = some (A, '-' :: B) := by
    rw [← hA]; exact takeDigitsN_of_digits _ hAd
  have h3 : takeDigitsN 2 B = some (B, []) := by
    have hb := takeDigitsN_of_digits ([] : Str) hBd
    rw [List.append_nil] at hb
    rw [← hB]; exact hb
  unfold looseDatePattern
  rw [hrun]
  rw [if_pos ⟨hy3, hy4⟩]
  rw [expectChar_cons]
  dsimp only
  rw [h2]
  dsimp only
  rw [expectChar_cons]
  dsimp only
  rw [h3]
  rfl

theorem mem_takeWhile_digits {l : Str} : ∀ c ∈ l.takeWhile isDigitB, isDigitB c = true :=
  fun _ hc => List.mem_takeWhile_imp hc

theorem tryCsvIso_shape {s d : Str} (h : tryCsvIso s = some d) :
    looseDatePattern d = true := by
  unfold tryCsvIso at h
  simp only [Option.bind_eq_bind, Option.bind_eq_some, Option.pure_def, Prod.exists] at h
  obtain ⟨y, r1, h1, r2, h2, mo, r3, h3, r4, h4, dd, r5, h5, hfin⟩ := h
  by_cases hr5 : r5 = []
  · rw [if_pos hr5] at hfin
    cases hfin
    obtain ⟨hylen, hyd, -⟩ := takeDigitsN_spec h1
    obtain ⟨hmolen, hmod, -⟩ := takeDigitsN_spec h3
    obtain ⟨hdlen, hdd, -⟩ := takeDigitsN_spec h5
    exact looseDatePattern_parts (by omega) (by omega) hyd hmolen hmod hdlen hdd
  · rw [if_neg hr5] at hfin
    cases hfin

theorem tryCsvDMY_shape {s d : Str} (h : tryCsvDMY s = some d) :
    looseDatePattern d = true := by
  unfold tryCsvDMY at h
  simp only [Option.bind_eq_bind, Option.bind_eq_some, Option.pure_def, Prod.exists] at h
  obtain ⟨d1, r1, h1, r2, h2, d2, r3, h3, r4, h4, hfin⟩ := h
  by_cases hcond : (takeDigitRun r4).2 = [] ∧ 2 ≤ (takeDigitRun r4).1.length ∧
      (takeDigitRun r4).1.length ≤ 4
  · rw [if_pos hcond] at hfin
    cases hfin
    obtain ⟨-, hd1len, hd1d⟩ := takeDigits12_spec h1
    obtain ⟨-, hd2len, hd2d⟩ := takeDigits12_spec h3
    have hyd : ∀ c ∈ (takeDigitRun r4).1, isDigitB c = true := mem_takeWhile_digits
    have hmo2 : (padStart2 (natToDec (decValue d2))).length = 2 := by
      refine padStart2_length ?_ ?_
      · have := List.length_pos.mpr (natToDec_ne_nil (decValue d2))
        omega
      · refine natToDec_length_le ?_ (by omega)
        have := decValue_lt_pow d2 hd2d
        calc decValue d2 < 10 ^ d2.length := this
          _ ≤ 10 ^ 2 := Nat.pow_le_pow_right (by norm_num) hd2len
    have hdd2 : (padStart2 (natToDec (decValue d1))).length = 2 := by
      refine padStart2_length ?_ ?_
      · have := List.length_pos.mpr (natToDec_ne_nil (decValue d1))
        omega
      · refine natToDec_length_le ?_ (by omega)
        have := decValue_lt_pow d1 hd1d
        calc decValue d1 < 10 ^ d1.length := this
          _ ≤ 10 ^ 2 := Nat.pow_le_pow_right (by norm_num) hd1len
    by_cases hy2 : (takeDigitRun r4).1.length = 2
    · rw [if_pos hy2]
      refine looseDatePattern_parts (by simp; omega) (by simp; omega) ?_ hmo2
        (padStart2_all_digits (natToDec_all_digits _)) hdd2
        (padStart2_all_digits (natToDec_all_digits _))
      intro c hc
      rcases List.mem_cons.mp hc with rfl | hc'
      · decide
      · rcases List.mem_cons.mp hc' with rfl | hc''
        · decide
        · exact hyd c hc''
    · rw [if_neg hy2]
      exact looseDatePattern_parts (by omega) (by omega) hyd hmo2
        (padStart2_all_digits (natToDec_all_digits _)) hdd2
        (padStart2_all_digits (natToDec_all_digits _))
  · rw [if_neg hcond] at hfin
    cases hfin

theorem tryCsvMonY_shape {s d : Str} (h : tryCsvMonY s = some d) :
    looseDatePattern d = true := by
  unfold tryCsvMonY at h
  simp only [Option.bind_eq_bind, Option.bind_eq_some, Option.pure_def, Prod.exists] at h
  obtain ⟨d1, r1, h1, r2, h2, mt, r3, h3, r5, h5, y, r6, h6, hfin⟩ := h
  by_cases hr6 : r6 = []
  · rw [if_pos hr6] at hfin
    cases hfin
    obtain ⟨-, hd1len, hd1d⟩ := takeDigits12_spec h1
    obtain ⟨hylen, hyd, -⟩ := takeDigitsN_spec h6
    obtain ⟨p, hp, hpm⟩ := matchAltsAt_spec h3
    obtain ⟨hmap, -⟩ := matchCaseInsAt_spec hpm
    have hlift : (mt.take 3).map asciiLower = p.take 3 := by
      rw [List.map_take, hmap]
    refine looseDatePattern_parts (by omega) (by omega) hyd ?_
      (padStart2_all_digits (natToDec_all_digits _)) ?_
      (padStart2_all_digits (natToDec_all_digits _))
    · refine padStart2_length ?_ ?_
      · have := List.length_pos.mpr (natToDec_ne_nil
          ((monthNum ((mt.take 3).map asciiLower)).getD 0))
        omega
      · refine natToDec_length_le ?_ (by omega)
        rw [hlift]
        exact monthAlts_lookup_lt p hp
    · refine padStart2_length ?_ ?_
      · have := List.length_pos.mpr (natToDec_ne_nil (decValue d1))
        omega
      · refine natToDec_length_le ?_ (by omega)
        have := decValue_lt_pow d1 hd1d
        calc decValue d1 < 10 ^ d1.length := this
          _ ≤ 10 ^ 2 := Nat.pow_le_pow_right (by norm_num) hd1len
  · rw [if_neg hr6] at hfin
    cases hfin

theorem toISODate_shape {s d : Str} (h : toISODate s = some d) :
    looseDatePattern d = true := by
  simp only [toISODate] at h
  cases h1 : tryCsvIso (trimJs s) with
  | some r =>
    rw [h1] at h
    cases h
    exact tryCsvIso_shape h1
  | none =>
    rw [h1] at h
    cases h2 : tryCsvDMY (trimJs s) with
    | some r =>
      rw [h2] at h
      cases h
      exact tryCsvDMY_shape h2
    | none =>
      rw [h2] at h
      exact tryCsvMonY_shape h

/-! ### Claim C2: invariants of the three entry producers -/

theorem trailTail_shape {ds rest cap : Str} (h : trailTail ds rest = some cap) :
    ∃ t, cap = ds ++ t := by
  cases rest with
  | nil => cases h; exact ⟨[], by simp⟩
  | cons c r5 =>
    rw [trailTail] at h
    by_cases hc : c = '.'
    · rw [if_pos hc] at h
      cases h2 : takeDigitsN 2 r5 with
      | some p =>
        obtain ⟨fs, r6⟩ := p
        rw [h2] at h
        dsimp only at h
        by_cases h3 : r6.dropWhile isJsWs = []
        · rw [if_pos h3] at h; cases h; exact ⟨'.' :: fs, rfl⟩
        · rw [if_neg h3] at h
          by_cases h4 : (c :: r5 : Str).dropWhile isJsWs = []
          · rw [if_pos h4] at h; cases h; exact ⟨[], by simp⟩
          · rw [if_neg h4] at h; cases h
      | none =>
        rw [h2] at h
        dsimp only at h
        by_cases h4 : (c :: r5 : Str).dropWhile isJsWs = []
        · rw [if_pos h4] at h; cases h; exact ⟨[], by simp⟩
        · rw [if_neg h4] at h; cases h
    · rw [if_neg hc] at h
      by_cases h4 : (c :: r5 : Str).dropWhile isJsWs = []
      · rw [if_pos h4] at h; cases h; exact ⟨[], by simp⟩
      · rw [if_neg h4] at h; cases h

/-- The capture of the trailing-amount pattern starts with a digit: the
optional minus sign is outside the capturing group. -/
theorem tryTrailAmtAt_head {l cap : Str} (h : tryTrailAmtAt l = some cap) :
    ∃ c t, cap = c :: t ∧ isDigitB c = true := by
  unfold tryTrailAmtAt at h
  by_cases hdp : (takeDigitRun (amtCore l)).1 = []
  · rw [if_pos hdp] at h; cases h
  · rw [if_neg hdp] at h
    obtain ⟨t, rfl⟩ := trailTail_shape h
    obtain ⟨c, t0, hct⟩ := List.exists_cons_of_ne_nil hdp
    refine ⟨c, t0 ++ t, by rw [hct, List.cons_append], ?_⟩
    have hmem : c ∈ (amtCore l).takeWhile isDigitB := by
      have heq : (takeDigitRun (amtCore l)).1 = (amtCore l).takeWhile isDigitB := rfl
      rw [← heq, hct]; simp
    exact mem_takeWhile_digits c hmem

theorem jsParseFloatMag_nonneg {s : Str} {q : ℚ} (h : jsParseFloatMag s = some q) :
    0 ≤ q := by
  simp only [jsParseFloatMag] at h
  by_cases hds : s.takeWhile isDigitB = [] ∧ fracDigits (s.dropWhile isDigitB) = []
  · rw [if_pos hds] at h; cases h
  · rw [if_neg hds] at h
    cases h
    have h1 : (0 : ℚ) ≤ (decValue (s.takeWhile isDigitB) : ℚ) := by positivity
    have h2 : (0 : ℚ) ≤ (decValue (fracDigits (s.dropWhile isDigitB)) : ℚ) /
        10 ^ (fracDigits (s.dropWhile isDigitB)).length := by positivity
    linarith

/-- `parseFloat` of a string beginning with a digit is nonnegative. -/
theorem jsParseFloat_nonneg_of_digit_head {c : Char} {l : Str} {q : ℚ}
    (hc : isDigitB c = true) (h : jsParseFloat (c :: l) = some q) : 0 ≤ q := by
  rw [jsParseFloat_digit_head l hc] at h
  exact jsParseFloatMag_nonneg h

/-- The amount found by the right-to-left column scan is nonnegative: the
capture group excludes the minus sign, so `parseFloat` sees only digits. -/
theorem findAmountFrom_nonneg (cols : List Str) :
    ∀ (j : Nat) {q : ℚ}, findAmountFrom cols j = some q → 0 ≤ q := by
  intro j
  induction j with
  | zero =>
    intro q h
    rw [findAmountFrom] at h
    cases hm : matchTrailAmount (cols.getD 0 []) with
    | none => rw [hm] at h; cases h
    | some cap =>
      rw [hm] at h
      dsimp only at h
      obtain ⟨s, hs⟩ := scanStr_spec hm
      obtain ⟨c, t, rfl, hc⟩ := tryTrailAmtAt_head hs
      exact jsParseFloat_nonneg_of_digit_head hc h
  | succ j ih =>
    intro q h
    rw [findAmountFrom] at h
    cases hm : matchTrailAmount (cols.getD (j + 1) []) with
    | none => rw [hm] at h; exact ih h
    | some cap =>
      rw [hm] at h
      dsimp only at h
      obtain ⟨s, hs⟩ := scanStr_spec hm
      obtain ⟨c, t, rfl, hc⟩ := tryTrailAmtAt_head hs
      exact jsParseFloat_nonneg_of_digit_head hc h

theorem csvRowAux_wf (cols : List Str) {e : TravelEntry}
    (he : e ∈ (if cols.length < 2 then ([] : List TravelEntry)
      else match toISODate (cols.getD 0 []), findAmountFrom cols (cols.length - 1) with
        | some date, some amount => [⟨date, amount⟩]
        | _, _ => [])) :
    looseDatePattern e.date = true ∧ 0 ≤ e.amount := by
  by_cases hlen : cols.length < 2
  · rw [if_pos hlen] at he; cases he
  · rw [if_neg hlen] at he
    cases hd : toISODate (cols.getD 0 []) with
    | none => rw [hd] at he; dsimp only at he; cases he
    | some date =>
      rw [hd] at he
      cases ha : findAmountFrom cols (cols.length - 1) with
      | none => rw [ha] at he; dsimp only at he; cases he
      | some amount =>
        rw [ha] at he
        dsimp only at he
        rcases List.mem_cons.mp he with rfl | hcon
        · exact ⟨toISODate_shape hd, findAmountFrom_nonneg cols _ ha⟩
        · cases hcon

theorem csvRow_wf (row : Str) : ∀ e ∈ csvRow row,
    looseDatePattern e.date = true ∧ 0 ≤ e.amount := by
  intro e he
  simp only [csvRow] at he
  exact csvRowAux_wf _ he

/-- Dates emitted by `parseCsvToTravelEntries` match the loose shape
`\d\x7b3,4\x7d-\d\x7b2\x7d-\d\x7b2\x7d` and amounts are nonnegative. -/
theorem parseCsvToTravelEntries_wf (text : Str) :
    ∀ e ∈ parseCsvToTravelEntries text,
      looseDatePattern e.date = true ∧ 0 ≤ e.amount := by
  intro e he
  simp only [parseCsvToTravelEntries] at he
  by_cases hl : ((splitJsLines text).map trimJs).filter (fun l => !l.isEmpty) = []
  · rw [if_pos hl] at he; cases he
  · rw [if_neg hl] at he
    rcases List.mem_flatMap.mp he with ⟨row, -, hin⟩
    exact csvRow_wf row e hin

/-- C2 counterexample: the AI-output validator accepts a negative amount
(`-1` with a well-formed date passes validation), and the CSV parser emits
`\x7bdate: "202-01-01", amount: 0\x7d` from the row `"1/1/202,0"` — a
three-digit year failing `^\d\x7b4\x7d-\d\x7b2\x7d-\d\x7b2\x7d$` and a
non-positive amount. -/
theorem c2_counterexample :
    aiValidateEntries [⟨some dateLit1, some (-1)⟩] = [⟨dateLit1, (-1 : ℚ)⟩] ∧
    ¬ (0 < (-1 : ℚ)) ∧
    parseCsvToTravelEntries ((r"1/1/202,0").toList) =
      [⟨(r"202-01-01").toList, (0 : ℚ)⟩] ∧
    isoDatePattern ((r"202-01-01").toList) = false ∧
    ¬ (0 < (0 : ℚ)) := by
  refine ⟨by decide, by decide, by decide, by decide, by decide⟩

/-- C2 (amended): the heuristic journey parser guarantees both invariants —
every emitted entry has a date matching `^\d\x7b4\x7d-\d\x7b2\x7d-\d\x7b2\x7d$`
and a strictly positive amount.  The AI-output validator guarantees the date
pattern only: any finite amount, including zero and negative values, passes.
The CSV parser guarantees a nonnegative amount and a date of shape
three-or-four digits, dash, two digits, dash, two digits. -/
theorem c2_producer_invariants (cy : Nat) (hcy1 : 1000 ≤ cy) (hcy2 : cy ≤ 9999)
    (text csv : Str) (items : List RawItem) :
    (∀ e ∈ parseJourneysHeuristically cy text,
        isoDatePattern e.date = true ∧ 0 < e.amount) ∧
    (∀ e ∈ aiValidateEntries items, isoDatePattern e.date = true) ∧
    (∀ e ∈ parseCsvToTravelEntries csv,
        looseDatePattern e.date = true ∧ 0 ≤ e.amount) :=
  ⟨parseJourneysHeuristically_wf hcy1 hcy2 text,
   aiValidateEntries_wf items,
   parseCsvToTravelEntries_wf csv⟩

theorem c2_producer_invariants_witness :
    (1000 ≤ 2026 ∧ 2026 ≤ 9999) ∧
    ((∀ e ∈ parseJourneysHeuristically 2026 ((r"2025-10-15 fare £1.70").toList),
        isoDatePattern e.date = true ∧ 0 < e.amount) ∧
     (∀ e ∈ aiValidateEntries [⟨some dateLit2, some (17/10 : ℚ)⟩],
        isoDatePattern e.date = true) ∧
     (∀ e ∈ parseCsvToTravelEntries ((r"15/10/2025,£1.70").toList),
        looseDatePattern e.date = true ∧ 0 ≤ e.amount)) :=
  ⟨⟨by decide, by decide⟩,
   c2_producer_invariants 2026 (by decide) (by decide)
     ((r"2025-10-15 fare £1.70").toList) ((r"15/10/2025,£1.70").toList)
     [⟨some dateLit2, some (17/10 : ℚ)⟩]⟩

/-! ### Claim C5: PDF page chunking -/

/-- The chunk-size policy of `extractTravelDataFromFile`. -/
def pagesPerChunkOf (n : Nat) : Nat :=
  if n ≤ 4 then n else if n ≤ 8 then 2 else 4

/-- The slicing loop `for (let i = 0; i < pageTexts.length; i += pagesPerChunk)
chunks.push(pageTexts.slice(i, i + pagesPerChunk))`, with the list length as
structural fuel. -/
def chunksOfAux {α : Type} (k : Nat) : Nat → List α → List (List α)
  | _, [] => []
  | 0, l => [l]
  | fuel + 1, l => l.take k :: chunksOfAux k fuel (l.drop k)

def chunksOf {α : Type} (k : Nat) (pages : List α) : List (List α) :=
  chunksOfAux k pages.length pages

theorem chunksOfAux_nil {α : Type} (k fuel : Nat) :
    chunksOfAux k fuel ([] : List α) = [] := by
  cases fuel <;> rfl

theorem chunksOfAux_zero {α : Type} (k : Nat) (a : α) (t : List α) :
    chunksOfAux k 0 (a :: t) = [a :: t] := rfl

theorem chunksOfAux_succ {α : Type} (k fuel : Nat) (a : α) (t : List α) :
    chunksOfAux k (fuel + 1) (a :: t) =
      (a :: t).take k :: chunksOfAux k fuel ((a :: t).drop k) := rfl

theorem chunksOfAux_flatten {α : Type} (k : Nat) (hk : 1 ≤ k) :
    ∀ (fuel : Nat) (l : List α), l.length ≤ fuel →
      (chunksOfAux k fuel l).flatten = l := by
  intro fuel
  induction fuel with
  | zero =>
    intro l hl
    have hnil : l = [] := List.length_eq_zero.mp (Nat.le_zero.mp hl)
    subst hnil; rfl
  | succ fuel ih =>
    intro l hl
    cases l with
    | nil => rfl
    | cons a t =>
      rw [chunksOfAux_succ, List.flatten_cons, ih]
      · exact List.take_append_drop k (a :: t)
      · rw [List.length_drop]
        simp only [List.length_cons] at hl ⊢
        omega

theorem chunksOfAux_ne_nil (k : Nat) (hk : 1 ≤ k) :
    ∀ (fuel : Nat) (l : List Str), ∀ c ∈ chunksOfAux k fuel l, c ≠ [] := by
  intro fuel
  induction fuel with
  | zero =>
    intro l c hc
    cases l with
    | nil => cases hc
    | cons a t =>
      rw [chunksOfAux_zero] at hc
      rcases List.mem_cons.mp hc with rfl | h
      · simp
      · cases h
  | succ fuel ih =>
    intro l c hc
    cases l with
    | nil => cases hc
    | cons a t =>
      rw [chunksOfAux_succ] at hc
      rcases List.mem_cons.mp hc with rfl | h
      · cases k with
        | zero => exact absurd hk (by omega)
        | succ k => simp
      · exact ih _ c h

theorem chunksOfAux_len_le (k : Nat) (hk : 1 ≤ k) :
    ∀ (fuel : Nat) (l : List Str), l.length ≤ fuel →
      ∀ c ∈ chunksOfAux k fuel l, c.length ≤ k := by
  intro fuel
  induction fuel with
  | zero =>
    intro l hl c hc
    have hnil : l = [] := List.length_eq_zero.mp (Nat.le_zero.mp hl)
    subst hnil; cases hc
  | succ fuel ih =>
    intro l hl c hc
    cases l with
    | nil => cases hc
    | cons a t =>
      rw [chunksOfAux_succ] at hc
      rcases List.mem_cons.mp hc with rfl | h
      · rw [List.length_take]
        exact Nat.min_le_left _ _
      · refine ih _ ?_ c h
        rw [List.length_drop]
        simp only [List.length_cons] at hl ⊢
        omega

theorem chunksOfAux_dropLast (k : Nat) (hk : 1 ≤ k) :
    ∀ (fuel : Nat) (l : List Str), l.length ≤ fuel →
      ∀ c ∈ (chunksOfAux k fuel l).dropLast, c.length = k := by
  intro fuel
  induction fuel with
  | zero =>
    intro l hl c hc
    have hnil : l = [] := List.length_eq_zero.mp (Nat.le_zero.mp hl)
    subst hnil; cases hc
  | succ fuel ih =>
    intro l hl c hc
    cases l with
    | nil => cases hc
    | cons a t =>
      rw [chunksOfAux_succ] at hc
      cases hdrop : chunksOfAux k fuel ((a :: t).drop k) with
      | nil => rw [hdrop] at hc; cases hc
      | cons c0 cs =>
        rw [hdrop, List.dropLast_cons₂] at hc
        rcases List.mem_cons.mp hc with rfl | h
        · have hdne : ((a :: t : List Str).drop k) ≠ [] := by
            intro hemp
            rw [hemp, chunksOfAux_nil] at hdrop
            cases hdrop
          have hpos : 0 < ((a :: t : List Str).drop k).length :=
            List.length_pos.mpr hdne
          rw [List.length_drop] at hpos
          rw [List.length_take]
          omega
        · rw [← hdrop] at h
          refine ih _ ?_ c h
          rw [List.length_drop]
          simp only [List.length_cons] at hl ⊢
          omega

theorem chunksOf_single {pages : List Str} (hne : pages ≠ [])
    (h4 : pages.length ≤ 4) :
    chunksOf (pagesPerChunkOf pages.length) pages = [pages] := by
  obtain ⟨a, t, rfl⟩ := List.exists_cons_of_ne_nil hne
  unfold chunksOf
  have hk : pagesPerChunkOf (a :: t).length = (a :: t).length := by
    unfold pagesPerChunkOf; rw [if_pos h4]
  rw [hk]
  have hlen : (a :: t : List Str).length = t.length + 1 := rfl
  rw [hlen, chunksOfAux_succ]
  have htake : (a :: t : List Str).take (t.length + 1) = a :: t :=
    List.take_of_length_le (by rw [hlen])
  have hdropnil : (a :: t : List Str).drop (t.length + 1) = [] :=
    List.drop_eq_nil_of_le (by rw [hlen])
  rw [htake, hdropnil, chunksOfAux_nil]

/-- C5: for a nonempty page list the chunking loop partitions the pages in
order — flattening the chunks gives back the page list, no chunk is empty,
every chunk but the last has exactly `pagesPerChunk` pages and none has
more — and the chunk size follows the policy: at most 4 pages go in one
chunk, 5 to 8 pages go 2 per chunk, 9 or more go 4 per chunk. -/
theorem c5_chunking (pages : List Str) (hne : pages ≠ []) :
    (chunksOf (pagesPerChunkOf pages.length) pages).flatten = pages ∧
    (∀ c ∈ chunksOf (pagesPerChunkOf pages.length) pages, c ≠ []) ∧
    (∀ c ∈ (chunksOf (pagesPerChunkOf pages.length) pages).dropLast,
        c.length = pagesPerChunkOf pages.length) ∧
    (∀ c ∈ chunksOf (pagesPerChunkOf pages.length) pages,
        c.length ≤ pagesPerChunkOf pages.length) ∧
    (pages.length ≤ 4 → chunksOf (pagesPerChunkOf pages.length) pages = [pages]) ∧
    (5 ≤ pages.length ∧ pages.length ≤ 8 → pagesPerChunkOf pages.length = 2) ∧
    (9 ≤ pages.length → pagesPerChunkOf pages.length = 4) := by
  have hpos : 0 < pages.length := List.length_pos.mpr hne
  have hk : 1 ≤ pagesPerChunkOf pages.length := by
    unfold pagesPerChunkOf
    split_ifs <;> omega
  refine ⟨chunksOfAux_flatten _ hk _ _ (le_refl _),
         chunksOfAux_ne_nil _ hk _ _,
         chunksOfAux_dropLast _ hk _ _ (le_refl _),
         chunksOfAux_len_le _ hk _ _ (le_refl _),
         fun h4 => chunksOf_single hne h4,
         ?_, ?_⟩
  · intro h
    unfold pagesPerChunkOf
    rw [if_neg (by omega), if_pos h.2]
  · intro h
    unfold pagesPerChunkOf
    rw [if_neg (by omega), if_neg (by omega)]

theorem c5_chunking_witness :
    (([['1'], ['2'], ['3'], ['4'], ['5'], ['6'], ['7'], ['8'], ['9']] : List Str) ≠ []) ∧
    (chunksOf (pagesPerChunkOf 9)
        [['1'], ['2'], ['3'], ['4'], ['5'], ['6'], ['7'], ['8'], ['9']]).flatten =
      [['1'], ['2'], ['3'], ['4'], ['5'], ['6'], ['7'], ['8'], ['9']] ∧
    (chunksOf (pagesPerChunkOf 9)
        [['1'], ['2'], ['3'], ['4'], ['5'], ['6'], ['7'], ['8'], ['9']]).map List.length =
      [4, 4, 1] ∧
    (chunksOf (pagesPerChunkOf 6)
        [['1'], ['2'], ['3'], ['4'], ['5'], ['6']]).map List.length = [2, 2, 2] ∧
    (chunksOf (pagesPerChunkOf 3) [['1'], ['2'], ['3']]).map List.length = [3] :=
  ⟨by decide,
   (c5_chunking [['1'], ['2'], ['3'], ['4'], ['5'], ['6'], ['7'], ['8'], ['9']] (by decide)).1,
   by decide, by decide, by decide⟩

/-! ### Claim C8: multi-file fail-fast (processExpenses of src/improvements.md) -/

/-- Outcome of one file's `extractTravelDataFromFile` call: entries on
success, the thrown error message on failure. -/
abbrev FileOutcome := Except Str (List TravelEntry)

def maxConcurrentFiles : Nat := 3

def errOf : FileOutcome → Option Str
  | Except.error e => some e
  | Except.ok _ => none

/-- The inner `for (const result of batchResults)` loop: push successes
until the first failure, which sets the error and breaks. -/
def scanBatch : List FileOutcome → List (List TravelEntry) × Option Str
  | [] => ([], none)
  | Except.ok entries :: rest =>
    (entries :: (scanBatch rest).1, (scanBatch rest).2)
  | Except.error e :: _ => ([], some e)

/-- The outer batch loop: `if (hasError) break;` stops later batches once a
batch reported an error. -/
def runBatches : List (List FileOutcome) → List (List TravelEntry) × Option Str
  | [] => ([], none)
  | b :: bs =>
    match (scanBatch b).2 with
    | some e => ((scanBatch b).1, some e)
    | none => ((scanBatch b).1 ++ (runBatches bs).1, (runBatches bs).2)

/-- `processExpenses` over the per-file outcomes: batches of
`MAX_CONCURRENT_FILES`, throw the recorded error message if any batch
failed, otherwise flatten the per-file entry lists. -/
def processFiles (outcomes : List FileOutcome) : FileOutcome :=
  match (runBatches (chunksOf maxConcurrentFiles outcomes)).2 with
  | some e => Except.error e
  | none =>
    Except.ok (runBatches (chunksOf maxConcurrentFiles outcomes)).1.flatten

theorem findSome?_append_eq {α β : Type} (f : α → Option β) :
    ∀ (l1 l2 : List α), (l1 ++ l2).findSome? f =
      match l1.findSome? f with
      | some b => some b
      | none => l2.findSome? f := by
  intro l1 l2
  induction l1 with
  | nil => simp
  | cons a t ih =>
    rw [List.cons_append, List.findSome?_cons, List.findSome?_cons]
    cases f a
    · exact ih
    · rfl

theorem scanBatch_snd : ∀ (b : List FileOutcome),
    (scanBatch b).2 = b.findSome? errOf := by
  intro b
  induction b with
  | nil => rfl
  | cons o rest ih =>
    cases o with
    | ok entries =>
      rw [scanBatch, List.findSome?_cons]
      exact ih
    | error e =>
      rw [scanBatch, List.findSome?_cons]
      rfl

theorem runBatches_snd : ∀ (bs : List (List FileOutcome)),
    (runBatches bs).2 = bs.flatten.findSome? errOf := by
  intro bs
  induction bs with
  | nil => rfl
  | cons b rest ih =>
    rw [runBatches, List.flatten_cons, findSome?_append_eq, ← scanBatch_snd]
    cases h : (scanBatch b).2
    · exact ih
    · rfl

/-- C8: if any file outcome is an error, the first error in submission
order is the overall result — no partial success is returned, and batches
after the failing one contribute nothing. -/
theorem c8_fail_fast (outcomes : List FileOutcome) (e : Str)
    (h : outcomes.findSome? errOf = some e) :
    processFiles outcomes = Except.error e := by
  unfold processFiles
  have hfl : (chunksOf maxConcurrentFiles outcomes).flatten = outcomes :=
    chunksOfAux_flatten maxConcurrentFiles (by decide) _ _ (le_refl _)
  have h2 : (runBatches (chunksOf maxConcurrentFiles outcomes)).2 = some e := by
    rw [runBatches_snd, hfl]; exact h
  rw [h2]

theorem c8_fail_fast_witness :
    ([Except.ok [(⟨dateLit1, (1 : ℚ)⟩ : TravelEntry)],
      Except.error ((r"File 2 failed").toList),
      Except.ok [(⟨dateLit2, (2 : ℚ)⟩ : TravelEntry)]] : List FileOutcome).findSome?
        errOf = some ((r"File 2 failed").toList) ∧
    processFiles [Except.ok [(⟨dateLit1, (1 : ℚ)⟩ : TravelEntry)],
      Except.error ((r"File 2 failed").toList),
      Except.ok [(⟨dateLit2, (2 : ℚ)⟩ : TravelEntry)]] =
      Except.error ((r"File 2 failed").toList) :=
  ⟨by decide,
   c8_fail_fast [Except.ok [(⟨dateLit1, (1 : ℚ)⟩ : TravelEntry)],
      Except.error ((r"File 2 failed").toList),
      Except.ok [(⟨dateLit2, (2 : ℚ)⟩ : TravelEntry)]] ((r"File 2 failed").toList)
     (by decide)⟩
